import Mathlib

/-!
Shallow embedding of the reorg-playground header-tree observer core
(src/headertree.rs, src/db.rs, src/cache.rs, src/main.rs) and proofs of
the specification claims about it.

Modelling conventions:
* `u64` values (heights, hashes, ids) are `Nat`; the only place unsigned
  wrap-around is observable in the modelled code is the `(height - x) as u64`
  probe in `strip_tree`, which is modelled explicitly (`probeDown`).
* The bitcoin `Header` (an external library type) is modelled by its parent
  pointer plus a `salt` standing for all remaining fields; `block_hash` is
  `Nat.pair` of the two, which is injective — the standard idealisation of a
  collision-free hash, also assumed by the source (invariant I5).
* `petgraph::DiGraph` is modelled by a node list (index = `NodeIndex`) and an
  insertion-ordered edge list; `update_edge` is a no-op when the edge exists
  (the edge weights are all `false`, so updating the weight changes nothing),
  `add_edge` always appends.
* `HashMap` is an association list; `insert` overwrites an existing key in
  place, lookups take the unique binding.
-/

/-- Model of the 80-byte bitcoin block header: the parent hash plus a `salt`
that stands for every other field (version, merkle root, time, bits, nonce). -/
structure Header where
  prev_blockhash : Nat
  salt : Nat
deriving DecidableEq, Repr

/-- `Header::block_hash()`: the content hash of the header. Modelled as the
injective pairing of the fields — the collision-free-hash idealisation. -/
def Header.block_hash (h : Header) : Nat := Nat.pair h.prev_blockhash h.salt

theorem Header.block_hash_injective : Function.Injective Header.block_hash := by
  intro a b hab
  have := Nat.pair_eq_pair.mp hab
  cases a; cases b
  simp only [Header.mk.injEq]
  exact ⟨this.1, this.2⟩

/-- `HeaderInfo` from src (constructed in db.rs / headertree.rs):
height, raw header, miner annotation. -/
structure HeaderInfo where
  height : Nat
  header : Header
  miner : String
deriving DecidableEq, Repr

/-- Modelled from the spec: `HeaderInfoJson` (types.rs is not in src/); §3 of
the spec gives the fields `{ id, prev_id, hash, height, miner }`, where
`prev_id = MAX_U64` signals "no parent in this view". -/
structure HeaderInfoJson where
  id : Nat
  prev_id : Nat
  height : Nat
  hash : Nat
  miner : String
deriving DecidableEq, Repr

/-- Modelled from the spec: `HeaderInfoJson::new(header_info, id, prev_id)`
(constructor lives in the missing types.rs; call sites in headertree.rs pass
the node weight, the node index and the previous node index). -/
def mkHeaderInfoJson (info : HeaderInfo) (id prev_id : Nat) : HeaderInfoJson :=
  { id := id, prev_id := prev_id, height := info.height,
    hash := info.header.block_hash, miner := info.miner }

/-- `usize::MAX` on a 64-bit target = `u64::MAX`, the "no parent" sentinel. -/
def U64MAX : Nat := 2 ^ 64 - 1

/-- `petgraph::DiGraph<HeaderInfo, bool>`: node weights in index order and
directed edges in insertion order (all edge weights are `false`). -/
structure DiGraph where
  nodes : List HeaderInfo
  edges : List (Nat × Nat)
deriving DecidableEq, Repr

/-- Node weight at an index (total function; all modelled accesses are in
range, out-of-range returns a dummy). -/
def DiGraph.nodeAt (g : DiGraph) (i : Nat) : HeaderInfo :=
  (g.nodes.getD i ⟨0, ⟨0, 0⟩, ""⟩)

/-- Height of the node at an index. -/
def DiGraph.heightAt (g : DiGraph) (i : Nat) : Nat := (g.nodeAt i).height

/-- `graph.update_edge(a, b, false)`: adds the edge unless it already exists
(an existing edge only gets its weight rewritten, and all weights are
`false`, so that is the identity). -/
def DiGraph.updateEdge (g : DiGraph) (a b : Nat) : DiGraph :=
  if (a, b) ∈ g.edges then g else { g with edges := g.edges ++ [(a, b)] }

/-- `graph.add_edge(a, b, &false)`: unconditionally appends an edge. -/
def DiGraph.addEdge (g : DiGraph) (a b : Nat) : DiGraph :=
  { g with edges := g.edges ++ [(a, b)] }

/-- Incoming edges of node `i` (`neighbors_directed(i, Incoming)` sources,
in edge-insertion order). -/
def DiGraph.incoming (g : DiGraph) (i : Nat) : List (Nat × Nat) :=
  g.edges.filter (fun e => e.2 = i)

/-- Outgoing neighbor targets of node `i`, in edge-insertion order. -/
def DiGraph.outNeighbors (g : DiGraph) (i : Nat) : List Nat :=
  (g.edges.filter (fun e => e.1 = i)).map (fun e => e.2)

/-- `TreeInfo` (db.rs builds `TreeInfo { graph, index }`): the DAG plus the
`block_hash → NodeIndex` map, modelled as an association list. -/
structure TreeInfo where
  graph : DiGraph
  index : List (Nat × Nat)
deriving DecidableEq, Repr

/-- `HashMap::get`: value of the unique binding for a key. -/
def assocLookup (m : List (Nat × Nat)) (k : Nat) : Option Nat :=
  (m.find? (fun p => p.1 = k)).map (fun p => p.2)

/-- `HashMap::insert`: overwrite the binding if the key is present, otherwise
append a fresh binding. -/
def assocInsert (m : List (Nat × Nat)) (k v : Nat) : List (Nat × Nat) :=
  if (m.find? (fun p => p.1 = k)).isSome then
    m.map (fun p => if p.1 = k then (k, v) else p)
  else m ++ [(k, v)]

/-- The empty tree (startup state before any insertion). -/
def emptyTree : TreeInfo := { graph := { nodes := [], edges := [] }, index := [] }

/-- First pass of `insert_headers`: add each header whose hash is not yet
indexed as a new node and index it; track whether anything was added. -/
def insertNodesPass (t : TreeInfo) (changed : Bool) :
    List HeaderInfo → TreeInfo × Bool
  | [] => (t, changed)
  | h :: rest =>
    if (assocLookup t.index h.header.block_hash).isSome then
      insertNodesPass t changed rest
    else
      insertNodesPass
        { graph := { t.graph with nodes := t.graph.nodes ++ [h] },
          index := assocInsert t.index h.header.block_hash t.graph.nodes.length }
        true rest

/-- Second pass of `insert_headers`: for each header, look up its own node and
its parent's node; if the parent is present, `update_edge` parent → child. -/
def insertEdgesPass (t : TreeInfo) : List HeaderInfo → TreeInfo
  | [] => t
  | h :: rest =>
    match assocLookup t.index h.header.block_hash with
    | none => insertEdgesPass t rest   -- unreachable: pass one indexed it ("expect")
    | some idxNew =>
      match assocLookup t.index h.header.prev_blockhash with
      | none => insertEdgesPass t rest
      | some idxPrev =>
        insertEdgesPass { t with graph := t.graph.updateEdge idxPrev idxNew } rest

/-- `insert_headers(tree, new_headers)` (headertree.rs): two passes under one
lock; returns the new tree and whether any node was added. -/
def insertHeaders (t : TreeInfo) (new_headers : List HeaderInfo) : TreeInfo × Bool :=
  let (t1, changed) := insertNodesPass t false new_headers
  (insertEdgesPass t1 new_headers, changed)

/-- A tree reachable from the empty tree by a sequence of `insert_headers`
calls. -/
def insertRuns (batches : List (List HeaderInfo)) : TreeInfo :=
  batches.foldl (fun t hs => (insertHeaders t hs).1) emptyTree

/-! ### Association-list lemmas -/

theorem assocLookup_nil (k : Nat) : assocLookup [] k = none := rfl

theorem assocLookup_cons (p : Nat × Nat) (m : List (Nat × Nat)) (k : Nat) :
    assocLookup (p :: m) k = if p.1 = k then some p.2 else assocLookup m k := by
  by_cases h : p.1 = k
  · simp [assocLookup, List.find?_cons_of_pos, h]
  · simp [assocLookup, List.find?_cons_of_neg, h]

theorem assocLookup_append_of_isSome {m : List (Nat × Nat)} {k : Nat}
    (h : (assocLookup m k).isSome) (l : List (Nat × Nat)) :
    assocLookup (m ++ l) k = assocLookup m k := by
  induction m with
  | nil => simp [assocLookup_nil] at h
  | cons p m ih =>
    by_cases hp : p.1 = k
    · simp [assocLookup_cons, hp]
    · simp only [List.cons_append, assocLookup_cons, hp, if_false] at h ⊢
      exact ih h

theorem assocLookup_append_of_isNone {m : List (Nat × Nat)} {k : Nat}
    (h : assocLookup m k = none) (l : List (Nat × Nat)) :
    assocLookup (m ++ l) k = assocLookup l k := by
  induction m with
  | nil => simp
  | cons p m ih =>
    by_cases hp : p.1 = k
    · simp [assocLookup_cons, hp] at h
    · simp only [assocLookup_cons, hp, if_false] at h
      simpa [assocLookup_cons, hp] using ih h

theorem assocLookup_mem {m : List (Nat × Nat)} {k v : Nat}
    (h : assocLookup m k = some v) : (k, v) ∈ m := by
  induction m with
  | nil => simp [assocLookup_nil] at h
  | cons p m ih =>
    by_cases hp : p.1 = k
    · simp only [assocLookup_cons, hp, if_true, Option.some.injEq] at h
      subst hp h
      exact List.mem_cons_self _ _
    · simp only [assocLookup_cons, hp, if_false] at h
      exact List.mem_cons_of_mem _ (ih h)

theorem assocInsert_of_isNone {m : List (Nat × Nat)} {k : Nat}
    (h : assocLookup m k = none) (v : Nat) : assocInsert m k v = m ++ [(k, v)] := by
  unfold assocInsert
  have : (m.find? (fun p => p.1 = k)) = none := by
    unfold assocLookup at h
    cases hf : m.find? (fun p => p.1 = k) with
    | none => rfl
    | some p => simp [hf] at h
  simp [this]

/-! ### Graph access lemmas -/

theorem nodeAt_append_lt (g : DiGraph) (h : HeaderInfo) {i : Nat}
    (hi : i < g.nodes.length) :
    DiGraph.nodeAt { g with nodes := g.nodes ++ [h] } i = g.nodeAt i := by
  simp [DiGraph.nodeAt, List.getElem?_append, hi]

theorem nodeAt_append_self (g : DiGraph) (h : HeaderInfo) :
    DiGraph.nodeAt { g with nodes := g.nodes ++ [h] } g.nodes.length = h := by
  simp [DiGraph.nodeAt, List.getElem?_append_right (le_refl g.nodes.length)]

theorem updateEdge_edges_sub (g : DiGraph) (a b : Nat) :
    g.edges ⊆ (g.updateEdge a b).edges := by
  unfold DiGraph.updateEdge
  split
  · exact fun e he => he
  · exact fun e he => List.mem_append_left _ he

theorem mem_updateEdge_self (g : DiGraph) (a b : Nat) :
    (a, b) ∈ (g.updateEdge a b).edges := by
  unfold DiGraph.updateEdge
  split
  · assumption
  · simp

theorem updateEdge_mem_iff (g : DiGraph) (a b : Nat) (e : Nat × Nat) :
    e ∈ (g.updateEdge a b).edges ↔ e ∈ g.edges ∨ e = (a, b) := by
  unfold DiGraph.updateEdge
  split
  · next hmem => constructor
                 · exact fun h => Or.inl h
                 · rintro (h | rfl)
                   · exact h
                   · exact hmem
  · simp [or_comm]

theorem updateEdge_nodes (g : DiGraph) (a b : Nat) :
    (g.updateEdge a b).nodes = g.nodes := by
  unfold DiGraph.updateEdge
  split <;> rfl

theorem updateEdge_nodup (g : DiGraph) (a b : Nat) (h : g.edges.Nodup) :
    (g.updateEdge a b).edges.Nodup := by
  unfold DiGraph.updateEdge
  split
  · exact h
  · next hni => simpa [List.nodup_append, h] using hni

/-! ### Tree invariants preserved by `insert_headers` -/

/-- Well-formedness of a `TreeInfo` (spec invariants I1–I4 plus the facts the
code relies on): index entries point at in-range nodes carrying the indexed
hash; edges join in-range nodes, relate child `prev_blockhash` to parent
`block_hash`, are uniquely determined by their target through the index, and
are pairwise distinct. -/
structure TreeWF (t : TreeInfo) : Prop where
  idx_lt : ∀ p ∈ t.index, p.2 < t.graph.nodes.length
  idx_hash : ∀ p ∈ t.index, (t.graph.nodeAt p.2).header.block_hash = p.1
  edge_lt : ∀ e ∈ t.graph.edges, e.1 < t.graph.nodes.length ∧ e.2 < t.graph.nodes.length
  edge_ok : ∀ e ∈ t.graph.edges,
    (t.graph.nodeAt e.2).header.prev_blockhash = (t.graph.nodeAt e.1).header.block_hash
  edge_src : ∀ e ∈ t.graph.edges,
    assocLookup t.index ((t.graph.nodeAt e.2).header.prev_blockhash) = some e.1
  edges_nodup : t.graph.edges.Nodup

theorem treeWF_empty : TreeWF emptyTree := by
  constructor <;> simp [emptyTree]

/-- Behaviour of the node-insertion pass: the edges are untouched, nodes and
index only grow, existing index bindings survive, every header of the batch
ends up indexed, and well-formedness is preserved. -/
theorem insertNodesPass_spec (hs : List HeaderInfo) :
    ∀ (t : TreeInfo) (c : Bool),
    (insertNodesPass t c hs).1.graph.edges = t.graph.edges ∧
    t.graph.nodes.length ≤ (insertNodesPass t c hs).1.graph.nodes.length ∧
    (∀ k, (assocLookup t.index k).isSome →
      assocLookup (insertNodesPass t c hs).1.index k = assocLookup t.index k) ∧
    (∀ h ∈ hs, (assocLookup (insertNodesPass t c hs).1.index h.header.block_hash).isSome) ∧
    (TreeWF t → TreeWF (insertNodesPass t c hs).1) := by
  induction hs with
  | nil =>
    intro t c
    refine ⟨rfl, le_refl _, fun k _ => rfl, by simp, fun w => w⟩
  | cons h rest ih =>
    intro t c
    by_cases hmem : (assocLookup t.index h.header.block_hash).isSome
    · have heq : insertNodesPass t c (h :: rest) = insertNodesPass t c rest := by
        simp [insertNodesPass, hmem]
      rw [heq]
      obtain ⟨e1, e2, e3, e4, e5⟩ := ih t c
      refine ⟨e1, e2, e3, ?_, e5⟩
      intro h' hh'
      rcases List.mem_cons.mp hh' with rfl | hh'
      · rw [e3 _ hmem]; exact hmem
      · exact e4 h' hh'
    · have hnone : assocLookup t.index h.header.block_hash = none := by
        cases hv : assocLookup t.index h.header.block_hash with
        | none => rfl
        | some v => rw [hv] at hmem; simp at hmem
      set t' : TreeInfo :=
        { graph := { t.graph with nodes := t.graph.nodes ++ [h] },
          index := assocInsert t.index h.header.block_hash t.graph.nodes.length } with ht'
      have heq : insertNodesPass t c (h :: rest) = insertNodesPass t' true rest := by
        simp [insertNodesPass, hmem]
      have hidx : t'.index = t.index ++ [(h.header.block_hash, t.graph.nodes.length)] := by
        rw [ht']; exact assocInsert_of_isNone hnone _
      have hlook : ∀ k, (assocLookup t.index k).isSome →
          assocLookup t'.index k = assocLookup t.index k := by
        intro k hk
        rw [hidx]
        exact assocLookup_append_of_isSome hk _
      have hlookNew : assocLookup t'.index h.header.block_hash
          = some t.graph.nodes.length := by
        rw [hidx, assocLookup_append_of_isNone hnone]
        simp [assocLookup_cons]
      obtain ⟨e1, e2, e3, e4, e5⟩ := ih t' true
      rw [heq]
      refine ⟨by rw [e1], ?_, ?_, ?_, ?_⟩
      · calc t.graph.nodes.length ≤ t'.graph.nodes.length := by simp [ht']
          _ ≤ _ := e2
      · intro k hk
        rw [e3 k (by rw [hlook k hk]; exact hk), hlook k hk]
      · intro h' hh'
        rcases List.mem_cons.mp hh' with rfl | hh'
        · rw [e3 _ (by rw [hlookNew]; rfl), hlookNew]; rfl
        · exact e4 h' hh'
      · intro wf
        apply e5
        constructor
        · intro p hp
          rw [hidx] at hp
          rcases List.mem_append.mp hp with hp | hp
          · have := wf.idx_lt p hp
            simp only [ht']
            simp only [List.length_append, List.length_cons, List.length_nil]
            omega
          · simp only [List.mem_singleton] at hp
            subst hp
            simp [ht']
        · intro p hp
          rw [hidx] at hp
          rcases List.mem_append.mp hp with hp | hp
          · have hlt := wf.idx_lt p hp
            have := wf.idx_hash p hp
            simp only [ht'] at *
            rwa [nodeAt_append_lt t.graph h hlt]
          · simp only [List.mem_singleton] at hp
            subst hp
            simp only [ht']
            rw [nodeAt_append_self t.graph h]
        · intro e he
          simp only [ht'] at he ⊢
          have := wf.edge_lt e he
          simp only [List.length_append, List.length_cons, List.length_nil]
          omega
        · intro e he
          simp only [ht'] at he ⊢
          have hlt := wf.edge_lt e he
          have := wf.edge_ok e he
          rwa [nodeAt_append_lt t.graph h hlt.1, nodeAt_append_lt t.graph h hlt.2]
        · intro e he
          simp only [ht'] at he ⊢
          have hlt := wf.edge_lt e he
          have hsrc := wf.edge_src e he
          rw [nodeAt_append_lt t.graph h hlt.2, assocInsert_of_isNone hnone]
          rw [assocLookup_append_of_isSome (by rw [hsrc]; rfl)]
          exact hsrc
        · simp only [ht']
          exact wf.edges_nodup

theorem treeWF_updateEdge {t : TreeInfo} {h : HeaderInfo} {iNew iPrev : Nat}
    (wf : TreeWF t)
    (hNew : assocLookup t.index h.header.block_hash = some iNew)
    (hPrev : assocLookup t.index h.header.prev_blockhash = some iPrev) :
    TreeWF { t with graph := t.graph.updateEdge iPrev iNew } := by
  have hNewMem := assocLookup_mem hNew
  have hPrevMem := assocLookup_mem hPrev
  have hNewLt : iNew < t.graph.nodes.length := wf.idx_lt _ hNewMem
  have hPrevLt : iPrev < t.graph.nodes.length := wf.idx_lt _ hPrevMem
  have hNewHash : (t.graph.nodeAt iNew).header.block_hash = h.header.block_hash :=
    wf.idx_hash _ hNewMem
  have hPrevHash : (t.graph.nodeAt iPrev).header.block_hash = h.header.prev_blockhash :=
    wf.idx_hash _ hPrevMem
  have hNewHeader : (t.graph.nodeAt iNew).header = h.header :=
    Header.block_hash_injective hNewHash
  have hnodes := updateEdge_nodes t.graph iPrev iNew
  have hNodeAt : ∀ i, DiGraph.nodeAt (t.graph.updateEdge iPrev iNew) i = t.graph.nodeAt i := by
    intro i
    simp [DiGraph.nodeAt, hnodes]
  constructor
  · intro p hp
    simp only [hnodes]
    exact wf.idx_lt p hp
  · intro p hp
    rw [hNodeAt]
    exact wf.idx_hash p hp
  · intro e he
    rcases (updateEdge_mem_iff _ _ _ _).mp he with he | rfl
    · simpa [hnodes] using wf.edge_lt e he
    · simpa [hnodes] using ⟨hPrevLt, hNewLt⟩
  · intro e he
    rcases (updateEdge_mem_iff _ _ _ _).mp he with he | rfl
    · simpa [hNodeAt] using wf.edge_ok e he
    · simp only [hNodeAt]
      rw [hNewHeader, hPrevHash]
  · intro e he
    rcases (updateEdge_mem_iff _ _ _ _).mp he with he | rfl
    · simpa [hNodeAt] using wf.edge_src e he
    · simp only [hNodeAt]
      rw [hNewHeader]
      exact hPrev
  · exact updateEdge_nodup _ _ _ wf.edges_nodup

/-- Behaviour of the edge-insertion pass: index and nodes are untouched,
edges only grow, every parent/child pair resolvable through the index ends
up as an edge, and well-formedness is preserved. -/
theorem insertEdgesPass_spec (hs : List HeaderInfo) :
    ∀ (t : TreeInfo),
    (insertEdgesPass t hs).index = t.index ∧
    (insertEdgesPass t hs).graph.nodes = t.graph.nodes ∧
    t.graph.edges ⊆ (insertEdgesPass t hs).graph.edges ∧
    (∀ h ∈ hs, ∀ iNew iPrev,
      assocLookup t.index h.header.block_hash = some iNew →
      assocLookup t.index h.header.prev_blockhash = some iPrev →
      (iPrev, iNew) ∈ (insertEdgesPass t hs).graph.edges) ∧
    (TreeWF t → TreeWF (insertEdgesPass t hs)) := by
  induction hs with
  | nil =>
    intro t
    exact ⟨rfl, rfl, fun e he => he, by simp, fun w => w⟩
  | cons h rest ih =>
    intro t
    cases hNew : assocLookup t.index h.header.block_hash with
    | none =>
      have heq : insertEdgesPass t (h :: rest) = insertEdgesPass t rest := by
        simp [insertEdgesPass, hNew]
      rw [heq]
      obtain ⟨e1, e2, e3, e4, e5⟩ := ih t
      refine ⟨e1, e2, e3, ?_, e5⟩
      intro h' hh' iNew iPrev hN hP
      rcases List.mem_cons.mp hh' with rfl | hh'
      · rw [hNew] at hN; cases hN
      · exact e4 h' hh' iNew iPrev hN hP
    | some iNew =>
      cases hPrev : assocLookup t.index h.header.prev_blockhash with
      | none =>
        have heq : insertEdgesPass t (h :: rest) = insertEdgesPass t rest := by
          simp [insertEdgesPass, hNew, hPrev]
        rw [heq]
        obtain ⟨e1, e2, e3, e4, e5⟩ := ih t
        refine ⟨e1, e2, e3, ?_, e5⟩
        intro h' hh' iNew' iPrev' hN hP
        rcases List.mem_cons.mp hh' with rfl | hh'
        · rw [hPrev] at hP; cases hP
        · exact e4 h' hh' iNew' iPrev' hN hP
      | some iPrev =>
        set t' : TreeInfo := { t with graph := t.graph.updateEdge iPrev iNew } with ht'
        have heq : insertEdgesPass t (h :: rest) = insertEdgesPass t' rest := by
          simp [insertEdgesPass, hNew, hPrev, ht']
        rw [heq]
        obtain ⟨e1, e2, e3, e4, e5⟩ := ih t'
        have hidx : t'.index = t.index := rfl
        refine ⟨by rw [e1, hidx], ?_, ?_, ?_, ?_⟩
        · rw [e2, ht', updateEdge_nodes]
        · intro e he
          exact e3 (updateEdge_edges_sub t.graph iPrev iNew he)
        · intro h' hh' iNew' iPrev' hN hP
          rcases List.mem_cons.mp hh' with rfl | hh'
          · rw [hNew] at hN
            rw [hPrev] at hP
            cases hN; cases hP
            exact e3 (mem_updateEdge_self t.graph iPrev iNew)
          · exact e4 h' hh' iNew' iPrev' (by rw [hidx]; exact hN) (by rw [hidx]; exact hP)
        · intro wf
          exact e5 (treeWF_updateEdge wf hNew hPrev)

/-- The edge pass is the identity when every resolvable parent/child pair is
already an edge. -/
theorem insertEdgesPass_id (hs : List HeaderInfo) :
    ∀ (t : TreeInfo),
    (∀ h ∈ hs, ∀ iNew iPrev,
      assocLookup t.index h.header.block_hash = some iNew →
      assocLookup t.index h.header.prev_blockhash = some iPrev →
      (iPrev, iNew) ∈ t.graph.edges) →
    insertEdgesPass t hs = t := by
  induction hs with
  | nil => intro t _; rfl
  | cons h rest ih =>
    intro t hall
    cases hNew : assocLookup t.index h.header.block_hash with
    | none =>
      rw [show insertEdgesPass t (h :: rest) = insertEdgesPass t rest by
        simp [insertEdgesPass, hNew]]
      exact ih t (fun h' hh' => hall h' (List.mem_cons_of_mem _ hh'))
    | some iNew =>
      cases hPrev : assocLookup t.index h.header.prev_blockhash with
      | none =>
        rw [show insertEdgesPass t (h :: rest) = insertEdgesPass t rest by
          simp [insertEdgesPass, hNew, hPrev]]
        exact ih t (fun h' hh' => hall h' (List.mem_cons_of_mem _ hh'))
      | some iPrev =>
        have hmem : (iPrev, iNew) ∈ t.graph.edges :=
          hall h (List.mem_cons_self _ _) iNew iPrev hNew hPrev
        have hupd : t.graph.updateEdge iPrev iNew = t.graph := by
          unfold DiGraph.updateEdge
          simp [hmem]
        rw [show insertEdgesPass t (h :: rest) =
            insertEdgesPass { t with graph := t.graph.updateEdge iPrev iNew } rest by
          simp [insertEdgesPass, hNew, hPrev]]
        rw [hupd]
        exact ih t (fun h' hh' => hall h' (List.mem_cons_of_mem _ hh'))

/-- The node pass is the identity (and reports no change beyond its input
flag) when every header of the batch is already indexed. -/
theorem insertNodesPass_id (hs : List HeaderInfo) :
    ∀ (t : TreeInfo) (c : Bool),
    (∀ h ∈ hs, (assocLookup t.index h.header.block_hash).isSome) →
    insertNodesPass t c hs = (t, c) := by
  induction hs with
  | nil => intro t c _; rfl
  | cons h rest ih =>
    intro t c hall
    have hh := hall h (List.mem_cons_self _ _)
    rw [show insertNodesPass t c (h :: rest) = insertNodesPass t c rest by
      simp [insertNodesPass, hh]]
    exact ih t c (fun h' hh' => hall h' (List.mem_cons_of_mem _ hh'))

theorem insertHeaders_eq (t : TreeInfo) (hs : List HeaderInfo) :
    insertHeaders t hs =
      (insertEdgesPass (insertNodesPass t false hs).1 hs, (insertNodesPass t false hs).2) := by
  unfold insertHeaders
  rfl

theorem insertNodesPass_flag (hs : List HeaderInfo) :
    ∀ (t : TreeInfo) (c : Bool),
    (insertNodesPass t c hs).2 =
      (c || decide (t.graph.nodes.length < (insertNodesPass t c hs).1.graph.nodes.length)) := by
  induction hs with
  | nil => intro t c; simp [insertNodesPass]
  | cons h rest ih =>
    intro t c
    by_cases hmem : (assocLookup t.index h.header.block_hash).isSome
    · rw [show insertNodesPass t c (h :: rest) = insertNodesPass t c rest by
        simp [insertNodesPass, hmem]]
      exact ih t c
    · set t' : TreeInfo :=
        { graph := { t.graph with nodes := t.graph.nodes ++ [h] },
          index := assocInsert t.index h.header.block_hash t.graph.nodes.length } with ht'
      rw [show insertNodesPass t c (h :: rest) = insertNodesPass t' true rest by
        simp [insertNodesPass, hmem]]
      have hlen : t.graph.nodes.length < (insertNodesPass t' true rest).1.graph.nodes.length := by
        have h2 := (insertNodesPass_spec rest t' true).2.1
        have : t.graph.nodes.length < t'.graph.nodes.length := by simp [ht']
        omega
      rw [ih t' true]
      simp [hlen]

theorem treeWF_insertHeaders {t : TreeInfo} (wf : TreeWF t) (hs : List HeaderInfo) :
    TreeWF (insertHeaders t hs).1 := by
  rw [insertHeaders_eq]
  exact (insertEdgesPass_spec hs _).2.2.2.2 ((insertNodesPass_spec hs t false).2.2.2.2 wf)

theorem treeWF_insertRuns (batches : List (List HeaderInfo)) :
    TreeWF (insertRuns batches) := by
  have : ∀ (t : TreeInfo), TreeWF t →
      TreeWF (batches.foldl (fun t hs => (insertHeaders t hs).1) t) := by
    induction batches with
    | nil => exact fun t wf => wf
    | cons hs rest ih =>
      intro t wf
      exact ih _ (treeWF_insertHeaders wf hs)
  exact this emptyTree treeWF_empty

theorem length_le_one_of_nodup_of_eq {α : Type} {l : List α} {a : α}
    (hnd : l.Nodup) (hall : ∀ x ∈ l, x = a) : l.length ≤ 1 := by
  match l with
  | [] => simp
  | [x] => simp
  | x :: y :: rest =>
    exfalso
    have hx : x = a := hall x (by simp)
    have hy : y = a := hall y (by simp)
    rw [List.nodup_cons] at hnd
    exact hnd.1 (by rw [hx, hy]; simp)

theorem indeg_le_one_of_treeWF {t : TreeInfo} (wf : TreeWF t) (i : Nat) :
    (t.graph.incoming i).length ≤ 1 := by
  cases hl : assocLookup t.index ((t.graph.nodeAt i).header.prev_blockhash) with
  | none =>
    have : t.graph.incoming i = [] := by
      unfold DiGraph.incoming
      rw [List.filter_eq_nil_iff]
      intro e he
      simp only [decide_eq_true_eq]
      intro hei
      have := wf.edge_src e he
      rw [hei, hl] at this
      cases this
    simp [this]
  | some v =>
    apply length_le_one_of_nodup_of_eq (a := (v, i))
    · exact List.Nodup.filter _ wf.edges_nodup
    · intro e he
      unfold DiGraph.incoming at he
      have hmem := List.mem_of_mem_filter he
      have hei : e.2 = i := by
        have := List.of_mem_filter he
        simpa using this
      have := wf.edge_src e hmem
      rw [hei, hl] at this
      cases this
      cases e
      simp_all

/-- C5: `insert_headers` is idempotent — a second call with the same batch
returns the tree unchanged and `false` — and in general it returns `true`
iff at least one node was added. -/
theorem insertHeaders_idempotent (t : TreeInfo) (hs : List HeaderInfo) :
    insertHeaders (insertHeaders t hs).1 hs = ((insertHeaders t hs).1, false) ∧
    ((insertHeaders t hs).2 = true ↔
      t.graph.nodes.length < (insertHeaders t hs).1.graph.nodes.length) := by
  obtain ⟨n1, n2, n3, n4, n5⟩ := insertNodesPass_spec hs t false
  obtain ⟨g1, g2, g3, g4, g5⟩ := insertEdgesPass_spec hs (insertNodesPass t false hs).1
  constructor
  · rw [insertHeaders_eq t hs]
    have hIdx : (insertEdgesPass (insertNodesPass t false hs).1 hs).index
        = (insertNodesPass t false hs).1.index := g1
    have hPresent : ∀ h ∈ hs,
        (assocLookup (insertEdgesPass (insertNodesPass t false hs).1 hs).index
          h.header.block_hash).isSome := by
      intro h hh
      rw [hIdx]
      exact n4 h hh
    rw [insertHeaders_eq]
    rw [insertNodesPass_id hs _ false hPresent]
    rw [insertEdgesPass_id hs _ ?_]
    intro h hh iNew iPrev hN hP
    rw [hIdx] at hN hP
    exact g4 h hh iNew iPrev hN hP
  · rw [insertHeaders_eq t hs]
    simp only
    rw [insertNodesPass_flag hs t false]
    have hnodes : (insertEdgesPass (insertNodesPass t false hs).1 hs).graph.nodes
        = (insertNodesPass t false hs).1.graph.nodes := g2
    rw [hnodes]
    simp

/-- C6: after any sequence of insertions starting from the empty tree, every
edge `(u, v)` satisfies `v.header.prev_blockhash = u.header.block_hash()`,
and no (parent, child) pair carries more than one edge. -/
theorem edges_correct_after_insertRuns (batches : List (List HeaderInfo)) :
    (∀ e ∈ (insertRuns batches).graph.edges,
      ((insertRuns batches).graph.nodeAt e.2).header.prev_blockhash =
        ((insertRuns batches).graph.nodeAt e.1).header.block_hash) ∧
    (insertRuns batches).graph.edges.Nodup := by
  have wf := treeWF_insertRuns batches
  exact ⟨wf.edge_ok, wf.edges_nodup⟩

/-! ### Header store (db.rs) -/

/-- A row of the `headers` table: `(height, network, hash, header, miner)`
with primary key `(network, hash, header)`. The `hash` and serialized
`header` columns are both determined by the header value, so they are not
stored separately. -/
structure DbRow where
  height : Nat
  network : Nat
  header : Header
  miner : String
deriving DecidableEq, Repr

/-- `write_to_db(new_headers, db, network)`: one transaction of
`INSERT OR IGNORE` statements — a row is skipped iff a row with the same
primary key `(network, hash, header)` already exists. -/
def writeToDb (rows : List DbRow) (new_headers : List HeaderInfo) (network : Nat) :
    List DbRow :=
  new_headers.foldl
    (fun rs info =>
      if rs.any (fun r => r.network = network ∧
          r.header.block_hash = info.header.block_hash ∧ r.header = info.header) then rs
      else rs ++ [{ height := info.height, network := network,
                    header := info.header, miner := info.miner }])
    rows

/-- `load_header_infos(db, network, first_tracked_height)`: select rows of the
network with `height >= first_tracked_height`, ordered by height ascending. -/
def loadHeaderInfos (rows : List DbRow) (network fth : Nat) : List HeaderInfo :=
  ((rows.filter (fun r => r.network = network ∧ fth ≤ r.height)).map
    (fun r => { height := r.height, header := r.header, miner := r.miner })).mergeSort
    (fun a b => a.height ≤ b.height)

/-- First loop of `load_treeinfos`: add every loaded header as a node and
index it (`HashMap::insert`, overwriting). -/
def addNodeStep (t : TreeInfo) (h : HeaderInfo) : TreeInfo :=
  { graph := { t.graph with nodes := t.graph.nodes ++ [h] },
    index := assocInsert t.index h.header.block_hash t.graph.nodes.length }

/-- `load_treeinfos(db, network, first_tracked_height)`: load the rows, add
all nodes, then wire parent → child edges by hash lookup (the edge loop is
the same code shape as the edge pass of `insert_headers`). -/
def loadTreeinfos (rows : List DbRow) (network fth : Nat) : TreeInfo :=
  let header_infos := loadHeaderInfos rows network fth
  insertEdgesPass (header_infos.foldl addNodeStep emptyTree) header_infos

/-! ### assocInsert lookup lemmas -/


theorem assocLookup_map_overwrite (m : List (Nat × Nat)) (k' v k : Nat) (hne : k ≠ k') :
    assocLookup (m.map (fun p => if p.1 = k' then (k', v) else p)) k = assocLookup m k := by
  induction m with
  | nil => rfl
  | cons p m ih =>
    by_cases hpk : p.1 = k'
    · rw [List.map_cons, if_pos hpk, assocLookup_cons, assocLookup_cons]
      rw [if_neg (show ¬((k', v).1 = k) from fun h => hne h.symm)]
      rw [if_neg (show ¬(p.1 = k) by rw [hpk]; exact fun h => hne h.symm)]
      exact ih
    · rw [List.map_cons, if_neg hpk, assocLookup_cons, assocLookup_cons]
      by_cases hpk2 : p.1 = k
      · rw [if_pos hpk2, if_pos hpk2]
      · rw [if_neg hpk2, if_neg hpk2]
        exact ih

theorem assocLookup_map_overwrite_self (m : List (Nat × Nat)) (k v : Nat)
    (hp : (m.find? (fun p => p.1 = k)).isSome) :
    assocLookup (m.map (fun p => if p.1 = k then (k, v) else p)) k = some v := by
  induction m with
  | nil => simp [List.find?] at hp
  | cons p m ih =>
    by_cases hpk : p.1 = k
    · rw [List.map_cons, if_pos hpk, assocLookup_cons]
      simp
    · rw [List.map_cons, if_neg hpk, assocLookup_cons, if_neg hpk]
      apply ih
      simpa [List.find?_cons_of_neg, hpk] using hp

theorem assocLookup_assocInsert_self (m : List (Nat × Nat)) (k v : Nat) :
    assocLookup (assocInsert m k v) k = some v := by
  unfold assocInsert
  by_cases hp : (m.find? (fun p => p.1 = k)).isSome
  · rw [if_pos hp]
    exact assocLookup_map_overwrite_self m k v hp
  · rw [if_neg hp]
    have hnone : assocLookup m k = none := by
      unfold assocLookup
      cases hf : m.find? (fun p => p.1 = k) with
      | none => rfl
      | some q => rw [hf] at hp; simp at hp
    rw [assocLookup_append_of_isNone hnone]
    simp [assocLookup_cons]

theorem assocLookup_assocInsert_ne (m : List (Nat × Nat)) (k' v k : Nat)
    (hne : k ≠ k') : assocLookup (assocInsert m k' v) k = assocLookup m k := by
  unfold assocInsert
  by_cases hp : (m.find? (fun p => p.1 = k')).isSome
  · rw [if_pos hp]
    exact assocLookup_map_overwrite m k' v k hne
  · rw [if_neg hp]
    by_cases hsome : (assocLookup m k).isSome
    · exact assocLookup_append_of_isSome hsome _
    · have hnone : assocLookup m k = none := by
        cases hv : assocLookup m k with
        | none => rfl
        | some v => rw [hv] at hsome; simp at hsome
      rw [assocLookup_append_of_isNone hnone, hnone, assocLookup_cons]
      rw [if_neg (show ¬((k', v).1 = k) from fun h => hne h.symm)]
      rfl

theorem addNodeStep_idxProp {t : TreeInfo} (h : HeaderInfo)
    (hidx : ∀ p ∈ t.index, p.2 < t.graph.nodes.length ∧
      (t.graph.nodeAt p.2).header.block_hash = p.1) :
    ∀ p ∈ (addNodeStep t h).index, p.2 < (addNodeStep t h).graph.nodes.length ∧
      ((addNodeStep t h).graph.nodeAt p.2).header.block_hash = p.1 := by
  intro p hp
  have hlen : (addNodeStep t h).graph.nodes.length = t.graph.nodes.length + 1 := by
    simp [addNodeStep]
  have hpres : ∀ i, i < t.graph.nodes.length →
      (addNodeStep t h).graph.nodeAt i = t.graph.nodeAt i := by
    intro i hi
    exact nodeAt_append_lt t.graph h hi
  have hself : (addNodeStep t h).graph.nodeAt t.graph.nodes.length = h :=
    nodeAt_append_self t.graph h
  have hpmem : p ∈ assocInsert t.index h.header.block_hash t.graph.nodes.length := hp
  unfold assocInsert at hpmem
  by_cases hf : (t.index.find? (fun q => q.1 = h.header.block_hash)).isSome
  · rw [if_pos hf] at hpmem
    obtain ⟨q, hq, hfq⟩ := List.mem_map.mp hpmem
    by_cases hqk : q.1 = h.header.block_hash
    · rw [if_pos hqk] at hfq
      subst hfq
      refine ⟨by omega, ?_⟩
      simp only [hself]
    · rw [if_neg hqk] at hfq
      subst hfq
      obtain ⟨hlt, hh⟩ := hidx q hq
      exact ⟨by omega, by rw [hpres q.2 hlt]; exact hh⟩
  · rw [if_neg hf] at hpmem
    rcases List.mem_append.mp hpmem with hpm | hpm
    · obtain ⟨hlt, hh⟩ := hidx p hpm
      exact ⟨by omega, by rw [hpres p.2 hlt]; exact hh⟩
    · simp only [List.mem_singleton] at hpm
      subst hpm
      exact ⟨by omega, by rw [hself]⟩

theorem addNodeFold_spec (infos : List HeaderInfo) :
    ∀ (t : TreeInfo),
    (infos.foldl addNodeStep t).graph.edges = t.graph.edges ∧
    ((∀ p ∈ t.index, p.2 < t.graph.nodes.length ∧
        (t.graph.nodeAt p.2).header.block_hash = p.1) →
      ∀ p ∈ (infos.foldl addNodeStep t).index,
        p.2 < (infos.foldl addNodeStep t).graph.nodes.length ∧
        ((infos.foldl addNodeStep t).graph.nodeAt p.2).header.block_hash = p.1) ∧
    (∀ k, (assocLookup t.index k).isSome →
      (assocLookup (infos.foldl addNodeStep t).index k).isSome) ∧
    (∀ h ∈ infos,
      (assocLookup (infos.foldl addNodeStep t).index h.header.block_hash).isSome) := by
  induction infos with
  | nil => exact fun t => ⟨rfl, fun hi => hi, fun k hk => hk, by simp⟩
  | cons h rest ih =>
    intro t
    have hstep : (h :: rest).foldl addNodeStep t = rest.foldl addNodeStep (addNodeStep t h) := rfl
    obtain ⟨e1, e2, e3, e4⟩ := ih (addNodeStep t h)
    have hkeep : ∀ k, (assocLookup t.index k).isSome →
        (assocLookup (addNodeStep t h).index k).isSome := by
      intro k hk
      by_cases hkk : k = h.header.block_hash
      · subst hkk
        rw [show (addNodeStep t h).index
            = assocInsert t.index h.header.block_hash t.graph.nodes.length from rfl]
        rw [assocLookup_assocInsert_self]
        rfl
      · rw [show (addNodeStep t h).index
            = assocInsert t.index h.header.block_hash t.graph.nodes.length from rfl]
        rw [assocLookup_assocInsert_ne _ _ _ _ hkk]
        exact hk
    rw [hstep]
    refine ⟨by rw [e1]; rfl, ?_, ?_, ?_⟩
    · intro hidx
      exact e2 (addNodeStep_idxProp h hidx)
    · intro k hk
      exact e3 k (hkeep k hk)
    · intro h' hh'
      rcases List.mem_cons.mp hh' with rfl | hh'
      · apply e3
        rw [show (addNodeStep t h').index
            = assocInsert t.index h'.header.block_hash t.graph.nodes.length from rfl]
        rw [assocLookup_assocInsert_self]
        rfl
      · exact e4 h' hh'

theorem treeWF_loadBase (infos : List HeaderInfo) :
    TreeWF (infos.foldl addNodeStep emptyTree) := by
  obtain ⟨e1, e2, _, _⟩ := addNodeFold_spec infos emptyTree
  have hedges : (infos.foldl addNodeStep emptyTree).graph.edges = [] := by
    rw [e1]; rfl
  have hidx := e2 (by simp [emptyTree])
  constructor
  · exact fun p hp => (hidx p hp).1
  · exact fun p hp => (hidx p hp).2
  · intro e he; rw [hedges] at he; cases he
  · intro e he; rw [hedges] at he; cases he
  · intro e he; rw [hedges] at he; cases he
  · rw [hedges]; exact List.nodup_nil

theorem treeWF_loadTreeinfos (rows : List DbRow) (network fth : Nat) :
    TreeWF (loadTreeinfos rows network fth) := by
  unfold loadTreeinfos
  exact (insertEdgesPass_spec _ _).2.2.2.2 (treeWF_loadBase _)

/-- C9: in the full tree, whether built by any sequence of `insert_headers`
calls from the empty tree or loaded by `load_treeinfos`, every node has at
most one incoming edge, and each edge's source is exactly the node the index
assigns to the target's `prev_blockhash` — the graph is a forest. -/
theorem unique_incoming_edge :
    (∀ (batches : List (List HeaderInfo)) (i : Nat),
      ((insertRuns batches).graph.incoming i).length ≤ 1) ∧
    (∀ (batches : List (List HeaderInfo)), ∀ e ∈ (insertRuns batches).graph.edges,
      assocLookup (insertRuns batches).index
        (((insertRuns batches).graph.nodeAt e.2).header.prev_blockhash) = some e.1) ∧
    (∀ (rows : List DbRow) (network fth i : Nat),
      ((loadTreeinfos rows network fth).graph.incoming i).length ≤ 1) := by
  refine ⟨?_, ?_, ?_⟩
  · intro batches i
    exact indeg_le_one_of_treeWF (treeWF_insertRuns batches) i
  · intro batches e he
    exact (treeWF_insertRuns batches).edge_src e he
  · intro rows network fth i
    exact indeg_le_one_of_treeWF (treeWF_loadTreeinfos rows network fth) i

/-! ### Store round-trip (C7) -/

theorem addNodeFold_nodes (infos : List HeaderInfo) :
    ∀ (t : TreeInfo), (infos.foldl addNodeStep t).graph.nodes = t.graph.nodes ++ infos := by
  induction infos with
  | nil => intro t; simp
  | cons h rest ih =>
    intro t
    rw [show (h :: rest).foldl addNodeStep t = rest.foldl addNodeStep (addNodeStep t h) from rfl]
    rw [ih (addNodeStep t h)]
    simp [addNodeStep]

theorem writeToDb_step (rows : List DbRow) (info : HeaderInfo) (network : Nat) :
    ∀ rest, writeToDb rows (info :: rest) network =
      writeToDb
        (if rows.any (fun r => r.network = network ∧
            r.header.block_hash = info.header.block_hash ∧ r.header = info.header) then rows
         else rows ++ [{ height := info.height, network := network,
                         header := info.header, miner := info.miner }]) rest network := by
  intro rest
  rfl

theorem writeToDb_sub (batch : List HeaderInfo) :
    ∀ (rows : List DbRow) (network : Nat), rows ⊆ writeToDb rows batch network := by
  induction batch with
  | nil => intro rows network r hr; exact hr
  | cons info rest ih =>
    intro rows network r hr
    rw [writeToDb_step]
    apply ih
    split
    · exact hr
    · exact List.mem_append_left _ hr

theorem writeToDb_sound (batch : List HeaderInfo) :
    ∀ (rows : List DbRow) (network : Nat), ∀ r ∈ writeToDb rows batch network,
      r ∈ rows ∨ (r.network = network ∧ ∃ info ∈ batch, r.header = info.header) := by
  induction batch with
  | nil => intro rows network r hr; exact Or.inl hr
  | cons info rest ih =>
    intro rows network r hr
    rw [writeToDb_step] at hr
    rcases ih _ network r hr with hmem | ⟨hnet, i, hi, hh⟩
    · revert hmem
      split
      · exact fun hmem => Or.inl hmem
      · intro hmem
        rcases List.mem_append.mp hmem with hmem | hmem
        · exact Or.inl hmem
        · simp only [List.mem_singleton] at hmem
          subst hmem
          exact Or.inr ⟨rfl, info, List.mem_cons_self _ _, rfl⟩
    · exact Or.inr ⟨hnet, i, List.mem_cons_of_mem _ hi, hh⟩

theorem writeToDb_complete (batch : List HeaderInfo) :
    ∀ (rows : List DbRow) (network : Nat), ∀ info ∈ batch,
      ∃ r ∈ writeToDb rows batch network, r.network = network ∧ r.header = info.header := by
  induction batch with
  | nil => intro rows network info hi; cases hi
  | cons h rest ih =>
    intro rows network info hi
    rcases List.mem_cons.mp hi with rfl | hi
    · rw [writeToDb_step]
      by_cases hany : rows.any (fun r => r.network = network ∧
          r.header.block_hash = info.header.block_hash ∧ r.header = info.header)
      · obtain ⟨q, hq, hqp⟩ := List.any_eq_true.mp hany
        simp only [decide_eq_true_eq] at hqp
        rw [if_pos hany]
        exact ⟨q, writeToDb_sub rest rows network hq, hqp.1, hqp.2.2⟩
      · rw [if_neg hany]
        refine ⟨{ height := info.height, network := network,
                  header := info.header, miner := info.miner }, ?_, rfl, rfl⟩
        exact writeToDb_sub rest _ network (List.mem_append_right _ (by simp))
    · rw [writeToDb_step]
      split
      · exact ih rows network info hi
      · exact ih _ network info hi

theorem writeToDb_nodup (batch : List HeaderInfo) :
    ∀ (rows : List DbRow) (network : Nat),
      (∀ r ∈ rows, r.network = network) →
      (rows.map (fun r => r.header)).Nodup →
      (∀ r ∈ writeToDb rows batch network, r.network = network) ∧
      ((writeToDb rows batch network).map (fun r => r.header)).Nodup := by
  induction batch with
  | nil => intro rows network hnet hnd; exact ⟨hnet, hnd⟩
  | cons info rest ih =>
    intro rows network hnet hnd
    rw [writeToDb_step]
    by_cases hany : rows.any (fun r => r.network = network ∧
        r.header.block_hash = info.header.block_hash ∧ r.header = info.header)
    · rw [if_pos hany]
      exact ih rows network hnet hnd
    · rw [if_neg hany]
      apply ih
      · intro r hr
        rcases List.mem_append.mp hr with hr | hr
        · exact hnet r hr
        · simp only [List.mem_singleton] at hr
          subst hr
          rfl
      · rw [List.map_append]
        rw [List.nodup_append]
        refine ⟨hnd, by simp, ?_⟩
        intro x hx hxy
        simp only [List.map_cons, List.map_nil, List.mem_singleton] at hxy
        obtain ⟨q, hq, hqh⟩ := List.mem_map.mp hx
        apply hany
        apply List.any_eq_true.mpr
        refine ⟨q, hq, ?_⟩
        simp only [decide_eq_true_eq]
        rw [hqh, hxy]
        exact ⟨hnet q hq, rfl, rfl⟩

theorem nodeAt_congr {g1 g2 : DiGraph} (h : g1.nodes = g2.nodes) (i : Nat) :
    g1.nodeAt i = g2.nodeAt i := by
  simp [DiGraph.nodeAt, h]

theorem nodeAt_mem (g : DiGraph) {i : Nat} (hi : i < g.nodes.length) :
    g.nodeAt i ∈ g.nodes := by
  unfold DiGraph.nodeAt
  rw [List.getD_eq_getElem?_getD, List.getElem?_eq_getElem hi]
  exact List.getElem_mem hi

theorem loadHeaderInfos_perm (rows : List DbRow) (network : Nat)
    (hnet : ∀ r ∈ rows, r.network = network) :
    (loadHeaderInfos rows network 0).Perm
      (rows.map (fun r => { height := r.height, header := r.header, miner := r.miner })) := by
  unfold loadHeaderInfos
  have hfilter : rows.filter (fun r => decide (r.network = network ∧ 0 ≤ r.height)) = rows := by
    apply List.filter_eq_self.mpr
    intro r hr
    simp [hnet r hr]
  rw [hfilter]
  exact List.mergeSort_perm _ _

/-- C7: writing a batch into an empty store and loading it back yields a tree
whose node set, by block hash, is exactly the set of batch hashes, and whose
edges, as (parent hash, child hash) pairs, are exactly the parent links
present within the batch. -/
theorem store_roundtrip (batch : List HeaderInfo) (network : Nat) :
    (∀ a : Nat,
      (∃ info ∈ (loadTreeinfos (writeToDb [] batch network) network 0).graph.nodes,
        info.header.block_hash = a) ↔
      (∃ info ∈ batch, info.header.block_hash = a)) ∧
    (∀ a b : Nat,
      (∃ e ∈ (loadTreeinfos (writeToDb [] batch network) network 0).graph.edges,
        ((loadTreeinfos (writeToDb [] batch network) network 0).graph.nodeAt
          e.1).header.block_hash = a ∧
        ((loadTreeinfos (writeToDb [] batch network) network 0).graph.nodeAt
          e.2).header.block_hash = b) ↔
      (∃ p ∈ batch, ∃ c ∈ batch, p.header.block_hash = a ∧
        c.header.block_hash = b ∧ c.header.prev_blockhash = a)) := by
  set rows : List DbRow := writeToDb [] batch network with hrows
  have hnet : ∀ r ∈ rows, r.network = network := by
    intro r hr
    rcases writeToDb_sound batch [] network r hr with hmem | ⟨hn, _⟩
    · cases hmem
    · exact hn
  set loaded : List HeaderInfo := loadHeaderInfos rows network 0 with hloaded
  set base : TreeInfo := loaded.foldl addNodeStep emptyTree with hbase
  have hT : loadTreeinfos rows network 0 = insertEdgesPass base loaded := rfl
  set t : TreeInfo := insertEdgesPass base loaded with ht
  have hperm := loadHeaderInfos_perm rows network hnet
  have hbnodes : base.graph.nodes = loaded := by
    rw [hbase, addNodeFold_nodes loaded emptyTree]
    rfl
  have htnodes : t.graph.nodes = loaded := by
    rw [ht, (insertEdgesPass_spec loaded base).2.1, hbnodes]
  -- header-level roundtrip of the node set
  have hmemheader : ∀ hd : Header,
      (∃ info ∈ loaded, info.header = hd) ↔ (∃ info ∈ batch, info.header = hd) := by
    intro hd
    constructor
    · rintro ⟨info, hinfo, rfl⟩
      have : info ∈ rows.map
          (fun r => ({ height := r.height, header := r.header, miner := r.miner } : HeaderInfo)) :=
        hperm.mem_iff.mp hinfo
      obtain ⟨r, hr, hri⟩ := List.mem_map.mp this
      rcases writeToDb_sound batch [] network r hr with hmem | ⟨_, binfo, hbinfo, hbh⟩
      · cases hmem
      · exact ⟨binfo, hbinfo, by rw [← hri, ← hbh]⟩
    · rintro ⟨info, hinfo, rfl⟩
      obtain ⟨r, hr, _, hrh⟩ := writeToDb_complete batch [] network info hinfo
      refine ⟨{ height := r.height, header := r.header, miner := r.miner }, ?_, hrh⟩
      exact hperm.mem_iff.mpr (List.mem_map.mpr ⟨r, hr, rfl⟩)
  have wf : TreeWF t := by
    rw [ht]
    exact (insertEdgesPass_spec loaded base).2.2.2.2 (treeWF_loadBase loaded)
  have hidxbase := (addNodeFold_spec loaded emptyTree).2.1 (by simp [emptyTree])
  constructor
  · intro a
    rw [hT]
    constructor
    · rintro ⟨info, hinfo, rfl⟩
      rw [htnodes] at hinfo
      obtain ⟨binfo, hb, hbh⟩ := (hmemheader info.header).mp ⟨info, hinfo, rfl⟩
      exact ⟨binfo, hb, by rw [hbh]⟩
    · rintro ⟨info, hinfo, rfl⟩
      obtain ⟨linfo, hl, hlh⟩ := (hmemheader info.header).mpr ⟨info, hinfo, rfl⟩
      refine ⟨linfo, ?_, by rw [hlh]⟩
      rw [htnodes]
      exact hl
  · intro a b
    rw [hT]
    constructor
    · rintro ⟨e, he, ha, hb⟩
      have hlt := wf.edge_lt e he
      have hok := wf.edge_ok e he
      have hpmem : t.graph.nodeAt e.1 ∈ loaded := by
        rw [← htnodes]; exact nodeAt_mem t.graph hlt.1
      have hcmem : t.graph.nodeAt e.2 ∈ loaded := by
        rw [← htnodes]; exact nodeAt_mem t.graph hlt.2
      obtain ⟨pb, hpb, hpbh⟩ := (hmemheader (t.graph.nodeAt e.1).header).mp
        ⟨_, hpmem, rfl⟩
      obtain ⟨cb, hcb, hcbh⟩ := (hmemheader (t.graph.nodeAt e.2).header).mp
        ⟨_, hcmem, rfl⟩
      refine ⟨pb, hpb, cb, hcb, ?_, ?_, ?_⟩
      · rw [hpbh, ha]
      · rw [hcbh, hb]
      · rw [hcbh, hok]
        exact ha
    · rintro ⟨p, hp, c, hc, hpa, hcb, hprev⟩
      obtain ⟨p', hp', hp'h⟩ := (hmemheader p.header).mpr ⟨p, hp, rfl⟩
      obtain ⟨c', hc', hc'h⟩ := (hmemheader c.header).mpr ⟨c, hc, rfl⟩
      have hICsome := (addNodeFold_spec loaded emptyTree).2.2.2 c' hc'
      obtain ⟨ic, hIC⟩ := Option.isSome_iff_exists.mp hICsome
      have hPrevEq : c'.header.prev_blockhash = p'.header.block_hash := by
        rw [hc'h, hprev, ← hpa, hp'h]
      have hIPsome : (assocLookup base.index c'.header.prev_blockhash).isSome := by
        rw [hPrevEq]
        exact (addNodeFold_spec loaded emptyTree).2.2.2 p' hp'
      obtain ⟨ip, hIP⟩ := Option.isSome_iff_exists.mp hIPsome
      have hedge : (ip, ic) ∈ t.graph.edges := by
        rw [ht]
        exact (insertEdgesPass_spec loaded base).2.2.2.1 c' hc' ic ip hIC hIP
      have hICidx := hidxbase _ (assocLookup_mem hIC)
      have hIPidx := hidxbase _ (assocLookup_mem hIP)
      rw [← hbase] at hICidx hIPidx
      have hbase_t : ∀ i, base.graph.nodeAt i = t.graph.nodeAt i := by
        intro i
        apply nodeAt_congr
        rw [htnodes, hbnodes]
      refine ⟨(ip, ic), hedge, ?_, ?_⟩
      · show (t.graph.nodeAt ip).header.block_hash = a
        rw [← hbase_t ip]
        have h2 : (base.graph.nodeAt ip).header.block_hash = c'.header.prev_blockhash :=
          hIPidx.2
        rw [h2, hc'h, hprev]
      · show (t.graph.nodeAt ic).header.block_hash = b
        rw [← hbase_t ic]
        have h2 : (base.graph.nodeAt ic).header.block_hash = c'.header.block_hash :=
          hICidx.2
        rw [h2, hc'h, hcb]

/-! ### Interesting-height selection (headertree.rs, sorted_interesting_heights) -/

/-- The multiset of node heights (the values counted into `height_occurences`). -/
def treeHeights (g : DiGraph) : List Nat := g.nodes.map (fun n => n.height)

/-- Maximum over all heights (`height_occurences.iter().map(k).max()`),
0 for an empty tree (the code guards emptiness before using it). -/
def maxHeight (g : DiGraph) : Nat := (treeHeights g).foldr max 0

/-- Number of blocks at a height (`height_occurences[h]`; > 1 means a fork). -/
def heightCount (g : DiGraph) (h : Nat) : Nat := (treeHeights g).count h

/-- The set of heights that occur in the tree (`height_occurences` keys). -/
def heightsFinset (g : DiGraph) : Finset Nat := (treeHeights g).toFinset

/-- `window_start = max_height.saturating_sub(max_interesting_heights
.saturating_sub(1)).max(first_tracked_height)`; `Nat` subtraction is
saturating. -/
def windowStart (g : DiGraph) (k fth : Nat) : Nat := max (maxHeight g - (k - 1)) fth

/-- Step 1 of the selection: every occurring height in
`[window_start, max_height]` (occurring heights are ≤ `max_height`, so only
the lower bound is filtered). -/
def windowFinset (g : DiGraph) (k fth : Nat) : Finset Nat :=
  (heightsFinset g).filter (fun h => windowStart g k fth ≤ h)

/-- Fork heights: heights with more than one block. -/
def forkFinset (g : DiGraph) : Finset Nat :=
  (heightsFinset g).filter (fun h => 1 < heightCount g h)

/-- Step 2: hotspot candidates — fork heights, tip heights and `max_height`,
restricted to heights ≥ `first_tracked_height` that occur in the tree. -/
def hotspotCandidates (g : DiGraph) (fth : Nat) (tips : Finset Nat) : Finset Nat :=
  ((forkFinset g ∪ tips) ∪ {maxHeight g}).filter
    (fun h => fth ≤ h ∧ h ∈ treeHeights g)

/-- The candidates sorted descending (`sort_unstable_by(|a, b| b.cmp(a))`;
the elements of a `BTreeSet` are distinct, so instability is irrelevant). -/
def hotspotDescending (g : DiGraph) (fth : Nat) (tips : Finset Nat) : List Nat :=
  ((hotspotCandidates g fth tips).sort (· ≤ ·)).reverse

/-- `hotspot_budget(max_interesting_heights)` (headertree.rs lines 10–18). -/
def hotspotBudget (max_interesting_heights : Nat) : Nat :=
  if max_interesting_heights = 0 then 0
  else if max_interesting_heights ≤ 10 then min 2 max_interesting_heights
  else max 8 (max_interesting_heights / 5)

/-- The selected set: the recent window together with the top
`hotspot_budget` hotspots. -/
def interestingFinset (g : DiGraph) (k fth : Nat) (tips : Finset Nat) : Finset Nat :=
  windowFinset g k fth ∪
    ((hotspotDescending g fth tips).take (hotspotBudget k)).toFinset

/-- `sorted_interesting_heights(tree, max_interesting_heights,
first_tracked_height, tip_heights)`: empty on an empty tree or a zero
budget, otherwise the selected heights in ascending order (`BTreeSet`
iteration order). -/
def sortedInterestingHeights (t : TreeInfo) (k fth : Nat) (tips : Finset Nat) :
    List Nat :=
  if t.graph.nodes.length = 0 then []
  else if k = 0 then []
  else (interestingFinset t.graph k fth tips).sort (· ≤ ·)

/-! ### strip_tree -/

/-- `(height as i64 - 1) as u64`: wraps to `u64::MAX` at height 0. (For
`x = -2, -1` the probes are `height + 2`, `height + 1`; the `u64 → i64`
wrap above `2^63` is outside any reachable block height and not modelled.) -/
def probeDown (h : Nat) : Nat := if h = 0 then U64MAX else h - 1

/-- The `filter_map` predicate: keep a node iff one of
`height + 2, height + 1, height, height - 1` is an interesting height
(the loop over `x in -2..=1` tests `height - x`). -/
def keepHeader (S : List Nat) (h : Nat) : Bool :=
  decide ((h + 2) ∈ S) || decide ((h + 1) ∈ S) || decide (h ∈ S) ||
    decide (probeDown h ∈ S)

/-- Indices of the surviving nodes, in index order. -/
def survivors (g : DiGraph) (S : List Nat) : List Nat :=
  (List.range g.nodes.length).filter (fun i => keepHeader S (g.heightAt i))

/-- Position of a value in a list (used to renumber surviving indices the way
`filter_map` does). -/
def posIn (l : List Nat) (x : Nat) : Option Nat :=
  match l with
  | [] => none
  | y :: ys => if y = x then some 0 else (posIn ys x).map (fun n => n + 1)

/-- `graph.filter_map`: keep the selected nodes (renumbered in index order)
and every edge with both endpoints surviving, renumbered. -/
def filterGraph (g : DiGraph) (S : List Nat) : DiGraph :=
  { nodes := (survivors g S).map (fun i => g.nodeAt i),
    edges := g.edges.filterMap (fun e =>
      match posIn (survivors g S) e.1, posIn (survivors g S) e.2 with
      | some a, some b => some (a, b)
      | _, _ => none) }

/-- `externals(Incoming)`: node indices with no incoming edge, ascending. -/
def rootsOf (g : DiGraph) : List Nat :=
  (List.range g.nodes.length).filter (fun i => (g.incoming i).isEmpty)

/-- `roots.sort_by_key(|idx| graph[idx].height)` (stable). -/
def sortedRoots (g : DiGraph) : List Nat :=
  (rootsOf g).mergeSort (fun a b => g.heightAt a ≤ g.heightAt b)

/-- One step of `petgraph::visit::Dfs::next`: pop, skip if discovered,
otherwise emit and push the successors. -/
def dfsGo (g : DiGraph) : Nat → List Nat → Finset Nat → List Nat
  | 0, _, _ => []
  | _ + 1, [], _ => []
  | fuel + 1, n :: stack, visited =>
    if n ∈ visited then dfsGo g fuel stack visited
    else n :: dfsGo g fuel (g.outNeighbors n ++ stack) (insert n visited)

/-- The DFS visit order from `start`. Fuel `edges + 2` suffices: the stack
receives one initial entry plus, at each first visit of a node, its
out-neighbors — at most one stack entry per edge overall — and every step
consumes a stack entry. -/
def dfsList (g : DiGraph) (start : Nat) : List Nat :=
  dfsGo g (g.edges.length + 1 + 1) [start] ∅

/-- The running "maximum-height descendant" update of the reconnect loop:
record the node whenever its height strictly exceeds the running maximum. -/
def maxFoldStep (g : DiGraph) (acc : Nat × Option Nat) (idx : Nat) : Nat × Option Nat :=
  if acc.1 < g.heightAt idx then (g.heightAt idx, some idx) else acc

/-- Reconnect state: the graph plus `prev_header_to_connect_to`. -/
structure RState where
  g : DiGraph
  prev : Option Nat

/-- One iteration of the reconnect loop: connect the pending maximum-height
descendant (if any) to this root, then record this subtree's maximum-height
descendant via DFS (`max_height` restarts at `u64::default() = 0`). -/
def processRoot (st : RState) (root : Nat) : RState :=
  let g1 := match st.prev with
    | some p => st.g.addEdge p root
    | none => st.g
  let res := (dfsList g1 root).foldl (maxFoldStep g1) (0, none)
  ⟨g1, res.2⟩

/-- The whole reconnect pass over the height-sorted roots. -/
def reconnect (g : DiGraph) : DiGraph :=
  ((sortedRoots g).foldl processRoot ⟨g, none⟩).g

/-- `prev_id` of a node: `usize::MAX` with no incoming edge, otherwise the
source of the `last()` of `neighbors_directed(Incoming)` — petgraph iterates
incoming edges newest-first, so this is the first-inserted incoming edge. -/
def prevIdOf (g : DiGraph) (i : Nat) : Nat :=
  match g.incoming i with
  | [] => U64MAX
  | e :: _ => e.1

/-- The graph `strip_tree` renders: the tree filtered to the interesting
heights (±2/−1 context window) and then reconnected. -/
def stripFinal (t : TreeInfo) (k fth : Nat) (tips : Finset Nat) : DiGraph :=
  reconnect (filterGraph t.graph (sortedInterestingHeights t k fth tips))

/-- `strip_tree(tree, max_interesting_heights, first_tracked_height,
tip_heights)`: filter to the interesting heights, reconnect the resulting
subtrees, and emit one `HeaderInfoJson` per node, sorted by id. -/
def stripTree (t : TreeInfo) (k fth : Nat) (tips : Finset Nat) :
    List HeaderInfoJson :=
  ((List.range (stripFinal t k fth tips).nodes.length).map
    (fun idx => mkHeaderInfoJson ((stripFinal t k fth tips).nodeAt idx) idx
      (prevIdOf (stripFinal t k fth tips) idx))).mergeSort
    (fun a b => a.id ≤ b.id)

/-! ### Facts about the selection and the strip (C4, C1) -/

theorem foldr_max_mem {l : List Nat} (hne : l ≠ []) : l.foldr max 0 ∈ l := by
  induction l with
  | nil => cases hne rfl
  | cons x rest ih =>
    by_cases hr : rest = []
    · subst hr
      simp
    · rcases max_choice x (rest.foldr max 0) with hm | hm
    
      · simp only [List.foldr_cons, hm]
        exact List.mem_cons_self _ _
      · simp only [List.foldr_cons, hm]
        exact List.mem_cons_of_mem _ (ih hr)

theorem le_foldr_max {l : List Nat} : ∀ x ∈ l, x ≤ l.foldr max 0 := by
  induction l with
  | nil => simp
  | cons y rest ih =>
    intro x hx
    rcases List.mem_cons.mp hx with rfl | hx
    · simp [Nat.le_max_left]
    · calc x ≤ rest.foldr max 0 := ih x hx
        _ ≤ max y (rest.foldr max 0) := Nat.le_max_right _ _

theorem nodeAt_eq_getElem (g : DiGraph) {i : Nat} (hi : i < g.nodes.length) :
    g.nodeAt i = g.nodes[i] := by
  unfold DiGraph.nodeAt
  rw [List.getD_eq_getElem?_getD, List.getElem?_eq_getElem hi]
  rfl

theorem processRoot_nodes (st : RState) (root : Nat) :
    (processRoot st root).g.nodes = st.g.nodes := by
  unfold processRoot
  cases st.prev <;> rfl

theorem reconnect_fold_nodes (roots : List Nat) :
    ∀ (st : RState), ((roots.foldl processRoot st).g).nodes = st.g.nodes := by
  induction roots with
  | nil => intro st; rfl
  | cons r rest ih =>
    intro st
    rw [List.foldl_cons, ih (processRoot st r), processRoot_nodes]

theorem reconnect_nodes (g : DiGraph) : (reconnect g).nodes = g.nodes := by
  unfold reconnect
  rw [reconnect_fold_nodes]

/-- C4: the hotspot budget is exactly the claimed piecewise function of
`max_interesting_heights`, and at most that many heights beyond the recent
window — all of them top entries of the descending hotspot candidate list —
make it into the selected interesting-height set. -/
theorem hotspot_budget_correct :
    (∀ n : Nat, hotspotBudget n =
      (if n = 0 then 0 else if 1 ≤ n ∧ n ≤ 10 then min 2 n else max 8 (n / 5))) ∧
    (∀ (t : TreeInfo) (k fth : Nat) (tips : Finset Nat),
      ((sortedInterestingHeights t k fth tips).filter
        (fun h => decide (h ∉ windowFinset t.graph k fth))).length ≤ hotspotBudget k ∧
      ∀ h ∈ (sortedInterestingHeights t k fth tips).filter
        (fun h => decide (h ∉ windowFinset t.graph k fth)),
        h ∈ (hotspotDescending t.graph fth tips).take (hotspotBudget k)) := by
  constructor
  · intro n
    unfold hotspotBudget
    split_ifs <;> first | rfl | omega
  · intro t k fth tips
    unfold sortedInterestingHeights
    split_ifs with h0 hk
    · simp
    · simp
    · have hsub : ∀ h ∈ (interestingFinset t.graph k fth tips).sort (· ≤ ·),
          h ∉ windowFinset t.graph k fth →
          h ∈ (hotspotDescending t.graph fth tips).take (hotspotBudget k) := by
        intro h hh hnw
        have hmem : h ∈ interestingFinset t.graph k fth tips :=
          (Finset.mem_sort _).mp hh
        unfold interestingFinset at hmem
        rcases Finset.mem_union.mp hmem with hw | ht
        · exact absurd hw hnw
        · exact List.mem_toFinset.mp ht
      constructor
      · set L : List Nat := ((interestingFinset t.graph k fth tips).sort (· ≤ ·)).filter
          (fun h => decide (h ∉ windowFinset t.graph k fth)) with hL
        have hnd : L.Nodup := List.Nodup.filter _ (Finset.sort_nodup _ _)
        have hLsub : L.toFinset ⊆
            ((hotspotDescending t.graph fth tips).take (hotspotBudget k)).toFinset := by
          intro h hh
          rw [List.mem_toFinset] at hh ⊢
          have hmem := List.mem_of_mem_filter hh
          have hp := List.of_mem_filter hh
          simp only [decide_eq_true_eq] at hp
          exact hsub h hmem hp
        calc L.length = L.toFinset.card := (List.toFinset_card_of_nodup hnd).symm
          _ ≤ _ := Finset.card_le_card hLsub
          _ ≤ ((hotspotDescending t.graph fth tips).take (hotspotBudget k)).length :=
            List.toFinset_card_le _
          _ ≤ hotspotBudget k := List.length_take_le _ _
      · intro h hh
        have hmem := List.mem_of_mem_filter hh
        have hp := List.of_mem_filter hh
        simp only [decide_eq_true_eq] at hp
        exact hsub h hmem hp

/-- A one-node tree of height 5 (counterexample input for the claim that the
stripped view always contains the maximum height). -/
def c1Tree : TreeInfo :=
  { graph := { nodes := [⟨5, ⟨0, 1⟩, ""⟩], edges := [] }, index := [(Nat.pair 0 1, 0)] }

theorem stripTree_k0 (t : TreeInfo) (fth : Nat) (tips : Finset Nat) :
    stripTree t 0 fth tips = [] := by
  have h1 : sortedInterestingHeights t 0 fth tips = [] := by
    unfold sortedInterestingHeights
    split_ifs with h h2
    · rfl
    · rfl
    · exact absurd rfl h2
  have hsurv : survivors t.graph (sortedInterestingHeights t 0 fth tips) = [] := by
    rw [h1]
    unfold survivors keepHeader
    simp
  have hnodes : (stripFinal t 0 fth tips).nodes = [] := by
    unfold stripFinal
    rw [reconnect_nodes]
    show (survivors t.graph (sortedInterestingHeights t 0 fth tips)).map _ = []
    rw [hsurv]
    rfl
  unfold stripTree
  rw [hnodes]
  simp

/-- C1 counterexample: for the non-empty tree `c1Tree` and
`max_interesting_heights = 0`, `strip_tree` returns the empty list, so no
returned header carries the maximum height. -/
theorem strip_tree_max_counterexample :
    c1Tree.graph.nodes ≠ [] ∧
    ¬ ∃ h ∈ stripTree c1Tree 0 0 ∅, h.height = maxHeight c1Tree.graph := by
  refine ⟨by decide, ?_⟩
  rw [stripTree_k0]
  simp

/-- C1 (amended): for a non-empty tree, a window budget of at least 1 and a
`first_tracked_height` not above the maximum height, the stripped view
contains a header whose height is the maximum height in the tree. -/
theorem strip_tree_contains_max (t : TreeInfo) (k fth : Nat) (tips : Finset Nat)
    (hne : t.graph.nodes ≠ []) (hk : 1 ≤ k) (hfth : fth ≤ maxHeight t.graph) :
    ∃ h ∈ stripTree t k fth tips, h.height = maxHeight t.graph := by
  have hlen : t.graph.nodes.length ≠ 0 := by
    intro h
    exact hne (List.length_eq_zero.mp h)
  have hk0 : k ≠ 0 := by omega
  have hhne : treeHeights t.graph ≠ [] := by
    unfold treeHeights
    intro h
    exact hne (List.map_eq_nil_iff.mp h)
  have hmaxmem : maxHeight t.graph ∈ treeHeights t.graph := foldr_max_mem hhne
  -- the maximum height is selected (it lies in the recent window)
  have hSmax : maxHeight t.graph ∈ sortedInterestingHeights t k fth tips := by
    unfold sortedInterestingHeights
    rw [if_neg hlen, if_neg hk0]
    rw [Finset.mem_sort]
    unfold interestingFinset
    apply Finset.mem_union_left
    unfold windowFinset
    rw [Finset.mem_filter]
    refine ⟨List.mem_toFinset.mpr hmaxmem, ?_⟩
    unfold windowStart
    exact max_le (Nat.sub_le _ _) hfth
  -- a node of maximal height exists and survives the filter
  obtain ⟨info, hinfo, hih⟩ := List.mem_map.mp hmaxmem
  obtain ⟨i, hi, hieq⟩ := List.mem_iff_getElem.mp hinfo
  have hheight : t.graph.heightAt i = maxHeight t.graph := by
    unfold DiGraph.heightAt
    rw [nodeAt_eq_getElem t.graph hi, hieq, hih]
  have hkeep : keepHeader (sortedInterestingHeights t k fth tips)
      (t.graph.heightAt i) = true := by
    unfold keepHeader
    rw [hheight]
    simp [hSmax]
  have hsurv : i ∈ survivors t.graph (sortedInterestingHeights t k fth tips) := by
    unfold survivors
    rw [List.mem_filter]
    exact ⟨List.mem_range.mpr hi, hkeep⟩
  -- hence the filtered graph, and the reconnected graph, has such a node
  set S := sortedInterestingHeights t k fth tips with hS
  set final := stripFinal t k fth tips with hfinal
  have hfn : final.nodes = (survivors t.graph S).map (fun j => t.graph.nodeAt j) := by
    rw [hfinal]
    unfold stripFinal
    rw [reconnect_nodes, ← hS]
    rfl
  have hnodemem : t.graph.nodeAt i ∈ final.nodes := by
    rw [hfn]
    exact List.mem_map.mpr ⟨i, hsurv, rfl⟩
  obtain ⟨idx, hidx, hidxeq⟩ := List.mem_iff_getElem.mp hnodemem
  have hfheight : (final.nodeAt idx).height = maxHeight t.graph := by
    rw [nodeAt_eq_getElem final hidx, hidxeq]
    rw [nodeAt_eq_getElem t.graph hi, hieq, hih]
  -- that node produces an output entry of that height
  refine ⟨mkHeaderInfoJson (final.nodeAt idx) idx (prevIdOf final idx), ?_, hfheight⟩
  show _ ∈ stripTree t k fth tips
  unfold stripTree
  rw [List.mem_mergeSort]
  apply List.mem_map.mpr
  exact ⟨idx, List.mem_range.mpr hidx, rfl⟩

/-- Witness for the amended C1 at a concrete input. -/
theorem strip_tree_contains_max_witness :
    c1Tree.graph.nodes ≠ [] ∧ 1 ≤ 1 ∧ 0 ≤ maxHeight c1Tree.graph ∧
    ∃ h ∈ stripTree c1Tree 1 0 ∅, h.height = maxHeight c1Tree.graph :=
  ⟨by decide, by decide, by decide,
    strip_tree_contains_max c1Tree 1 0 ∅ (by decide) (by decide) (by decide)⟩

/-! ### Reconnect analysis (C3) -/

theorem posIn_lt {l : List Nat} {x n : Nat} (h : posIn l x = some n) : n < l.length := by
  induction l generalizing n with
  | nil => cases h
  | cons y ys ih =>
    unfold posIn at h
    by_cases hy : y = x
    · rw [if_pos hy] at h
      cases h
      simp
    · rw [if_neg hy] at h
      cases hm : posIn ys x with
      | none => rw [hm] at h; cases h
      | some m =>
        rw [hm] at h
        simp only [Option.map_some'] at h
        cases h
        have := ih hm
        simp only [List.length_cons]
        omega

theorem posIn_getD {l : List Nat} {x n : Nat} (h : posIn l x = some n) :
    l.getD n 0 = x := by
  induction l generalizing n with
  | nil => cases h
  | cons y ys ih =>
    unfold posIn at h
    by_cases hy : y = x
    · rw [if_pos hy] at h
      cases h
      simpa using hy
    · rw [if_neg hy] at h
      cases hm : posIn ys x with
      | none => rw [hm] at h; cases h
      | some m =>
        rw [hm] at h
        simp only [Option.map_some'] at h
        cases h
        simpa using ih hm

theorem filterGraph_nodes_length (g : DiGraph) (S : List Nat) :
    (filterGraph g S).nodes.length = (survivors g S).length := by
  unfold filterGraph
  simp

theorem survivors_lt (g : DiGraph) (S : List Nat) :
    ∀ i ∈ survivors g S, i < g.nodes.length := by
  intro i hi
  unfold survivors at hi
  exact List.mem_range.mp (List.mem_of_mem_filter hi)

theorem filterGraph_nodes_mem (g : DiGraph) (S : List Nat) :
    ∀ info ∈ (filterGraph g S).nodes, info ∈ g.nodes := by
  intro info hinfo
  unfold filterGraph at hinfo
  obtain ⟨i, hi, hieq⟩ := List.mem_map.mp hinfo
  rw [← hieq]
  exact nodeAt_mem g (survivors_lt g S i hi)

theorem filterGraph_edge_src {g : DiGraph} {S : List Nat} :
    ∀ e ∈ (filterGraph g S).edges,
      ∃ e0 ∈ g.edges, posIn (survivors g S) e0.1 = some e.1 ∧
        posIn (survivors g S) e0.2 = some e.2 := by
  intro e he
  unfold filterGraph at he
  obtain ⟨e0, he0, heq⟩ := List.mem_filterMap.mp he
  refine ⟨e0, he0, ?_⟩
  cases h1 : posIn (survivors g S) e0.1 with
  | none => rw [h1] at heq; cases heq
  | some a =>
    cases h2 : posIn (survivors g S) e0.2 with
    | none => rw [h1, h2] at heq; cases heq
    | some b =>
      rw [h1, h2] at heq
      cases heq
      exact ⟨rfl, rfl⟩

theorem filterGraph_edges_wf (g : DiGraph) (S : List Nat) :
    ∀ e ∈ (filterGraph g S).edges,
      e.1 < (filterGraph g S).nodes.length ∧ e.2 < (filterGraph g S).nodes.length := by
  intro e he
  obtain ⟨e0, _, h1, h2⟩ := filterGraph_edge_src e he
  rw [filterGraph_nodes_length]
  exact ⟨posIn_lt h1, posIn_lt h2⟩

theorem filterGraph_nodeAt {g : DiGraph} {S : List Nat} {i pos : Nat}
    (h : posIn (survivors g S) i = some pos) :
    (filterGraph g S).nodeAt pos = g.nodeAt i := by
  have hlt : pos < (survivors g S).length := posIn_lt h
  have hget := posIn_getD h
  have hlt2 : pos < (filterGraph g S).nodes.length := by
    rw [filterGraph_nodes_length]; exact hlt
  rw [nodeAt_eq_getElem _ hlt2]
  unfold filterGraph
  simp only [List.getElem_map]
  congr 1
  rw [← hget]
  rw [List.getD_eq_getElem?_getD, List.getElem?_eq_getElem hlt]
  rfl

theorem filterGraph_height_lt (g : DiGraph) (S : List Nat)
    (hinc : ∀ e ∈ g.edges, (g.nodeAt e.1).height < (g.nodeAt e.2).height) :
    ∀ e ∈ (filterGraph g S).edges,
      (filterGraph g S).heightAt e.1 < (filterGraph g S).heightAt e.2 := by
  intro e he
  obtain ⟨e0, he0, h1, h2⟩ := filterGraph_edge_src e he
  unfold DiGraph.heightAt
  rw [filterGraph_nodeAt h1, filterGraph_nodeAt h2]
  exact hinc e0 he0

theorem dfsGo_mem {g : DiGraph} {P : Nat → Prop}
    (hedges : ∀ e ∈ g.edges, P e.2) :
    ∀ (fuel : Nat) (stack : List Nat) (vis : Finset Nat),
      (∀ x ∈ stack, P x) → ∀ y ∈ dfsGo g fuel stack vis, P y := by
  intro fuel
  induction fuel with
  | zero =>
    intro stack vis _ y hy
    simp [dfsGo] at hy
  | succ f ih =>
    intro stack vis hstack y hy
    match stack with
    | [] => simp [dfsGo] at hy
    | n :: rest =>
      rw [show dfsGo g (f + 1) (n :: rest) vis =
          if n ∈ vis then dfsGo g f rest vis
          else n :: dfsGo g f (g.outNeighbors n ++ rest) (insert n vis) from rfl] at hy
      by_cases hv : n ∈ vis
      · rw [if_pos hv] at hy
        exact ih rest vis (fun x hx => hstack x (List.mem_cons_of_mem _ hx)) y hy
      · rw [if_neg hv] at hy
        rcases List.mem_cons.mp hy with rfl | hy
        · exact hstack y (List.mem_cons_self _ _)
        · apply ih _ _ ?_ y hy
          intro x hx
          rcases List.mem_append.mp hx with hx | hx
          · unfold DiGraph.outNeighbors at hx
            obtain ⟨e, he, heq⟩ := List.mem_map.mp hx
            rw [← heq]
            exact hedges e (List.mem_of_mem_filter he)
          · exact hstack x (List.mem_cons_of_mem _ hx)

theorem dfsList_head (g : DiGraph) (start : Nat) :
    ∃ tl, dfsList g start = start :: tl := by
  refine ⟨dfsGo g (g.edges.length + 1) (g.outNeighbors start ++ []) (insert start ∅), ?_⟩
  unfold dfsList
  rw [show dfsGo g (g.edges.length + 1 + 1) [start] ∅ =
      if start ∈ (∅ : Finset Nat) then dfsGo g (g.edges.length + 1) [] ∅
      else start :: dfsGo g (g.edges.length + 1)
        (g.outNeighbors start ++ []) (insert start ∅) from rfl]
  rw [if_neg (Finset.not_mem_empty start)]

theorem maxFold_stays {g : DiGraph} (l : List Nat) :
    ∀ (acc : Nat × Option Nat),
      (l.foldl (maxFoldStep g) acc).2 = acc.2 ∨
        ∃ i ∈ l, (l.foldl (maxFoldStep g) acc).2 = some i := by
  induction l with
  | nil => intro acc; exact Or.inl rfl
  | cons x rest ih =>
    intro acc
    rw [List.foldl_cons]
    by_cases hx : acc.1 < g.heightAt x
    · have hstep : maxFoldStep g acc x = (g.heightAt x, some x) := by
        unfold maxFoldStep
        rw [if_pos hx]
      rw [hstep]
      rcases ih (g.heightAt x, some x) with h | ⟨i, hi, h⟩
      · exact Or.inr ⟨x, List.mem_cons_self _ _, h⟩
      · exact Or.inr ⟨i, List.mem_cons_of_mem _ hi, h⟩
    · have hstep : maxFoldStep g acc x = acc := by
        unfold maxFoldStep
        rw [if_neg hx]
      rw [hstep]
      rcases ih acc with h | ⟨i, hi, h⟩
      · exact Or.inl h
      · exact Or.inr ⟨i, List.mem_cons_of_mem _ hi, h⟩

theorem maxFold_hits {g : DiGraph} (l : List Nat) :
    ∀ (acc : Nat × Option Nat),
      (∃ x ∈ l, acc.1 < g.heightAt x) →
      ∃ i ∈ l, (l.foldl (maxFoldStep g) acc).2 = some i := by
  induction l with
  | nil => rintro acc ⟨x, hx, _⟩; cases hx
  | cons y rest ih =>
    rintro acc ⟨x, hx, hgt⟩
    rw [List.foldl_cons]
    by_cases hy : acc.1 < g.heightAt y
    · have hstep : maxFoldStep g acc y = (g.heightAt y, some y) := by
        unfold maxFoldStep
        rw [if_pos hy]
      rw [hstep]
      rcases maxFold_stays rest ((g.heightAt y, some y)) with h | ⟨i, hi, h⟩
      · exact ⟨y, List.mem_cons_self _ _, h⟩
      · exact ⟨i, List.mem_cons_of_mem _ hi, h⟩
    · have hstep : maxFoldStep g acc y = acc := by
        unfold maxFoldStep
        rw [if_neg hy]
      rw [hstep]
      rcases List.mem_cons.mp hx with rfl | hx
      · exact absurd hgt hy
      · obtain ⟨i, hi, h⟩ := ih acc ⟨x, hx, hgt⟩
        exact ⟨i, List.mem_cons_of_mem _ hi, h⟩

theorem processRoot_some (g : DiGraph) (p r : Nat) :
    processRoot ⟨g, some p⟩ r =
      ⟨g.addEdge p r,
        ((dfsList (g.addEdge p r) r).foldl (maxFoldStep (g.addEdge p r)) (0, none)).2⟩ := rfl

theorem processRoot_none (g : DiGraph) (r : Nat) :
    processRoot ⟨g, none⟩ r =
      ⟨g, ((dfsList g r).foldl (maxFoldStep g) (0, none)).2⟩ := rfl

theorem processRoot_prev_some {N : List HeaderInfo} (hN : ∀ info ∈ N, 1 ≤ info.height)
    {g : DiGraph} (hnodes : g.nodes = N)
    (hwf : ∀ e ∈ g.edges, e.2 < N.length)
    {r : Nat} (hr : r < N.length) :
    ∃ i, ((dfsList g r).foldl (maxFoldStep g) (0, none)).2 = some i ∧ i < N.length := by
  have hrlen : r < g.nodes.length := by rw [hnodes]; exact hr
  have hheight : 0 < g.heightAt r := by
    have hmem : g.nodeAt r ∈ N := by
      rw [← hnodes]
      exact nodeAt_mem g hrlen
    have := hN _ hmem
    unfold DiGraph.heightAt
    omega
  obtain ⟨tl, htl⟩ := dfsList_head g r
  have hhit : ∃ x ∈ dfsList g r, (0, (none : Option Nat)).1 < g.heightAt x := by
    refine ⟨r, ?_, hheight⟩
    rw [htl]
    exact List.mem_cons_self _ _
  obtain ⟨i, hi, heq⟩ := maxFold_hits (dfsList g r) (0, none) hhit
  refine ⟨i, heq, ?_⟩
  have hbound : ∀ y ∈ dfsList g r, y < N.length := by
    intro y hy
    unfold dfsList at hy
    refine dfsGo_mem (P := fun y => y < N.length) hwf _ _ _ ?_ y hy
    intro x hx
    simp only [List.mem_singleton] at hx
    subst hx
    exact hr
  exact hbound i hi

theorem reconnect_fold_adds {N : List HeaderInfo} (hN : ∀ info ∈ N, 1 ≤ info.height) :
    ∀ (rest : List Nat) (g : DiGraph) (p : Nat),
      g.nodes = N →
      (∀ e ∈ g.edges, e.1 < N.length ∧ e.2 < N.length) →
      p < N.length → (∀ r ∈ rest, r < N.length) →
      ∃ adds : List (Nat × Nat),
        ((rest.foldl processRoot ⟨g, some p⟩).g).edges = g.edges ++ adds ∧
        adds.map (fun e => e.2) = rest ∧
        (∀ e ∈ adds, e.1 < N.length ∧ e.2 < N.length) := by
  intro rest
  induction rest with
  | nil =>
    intro g p hnodes hwf hp hrest
    exact ⟨[], by simp, rfl, by simp⟩
  | cons r rs ih =>
    intro g p hnodes hwf hp hrest
    have hr : r < N.length := hrest r (List.mem_cons_self _ _)
    set g1 : DiGraph := g.addEdge p r with hg1
    have hg1nodes : g1.nodes = N := by rw [hg1]; exact hnodes
    have hg1edges : g1.edges = g.edges ++ [(p, r)] := rfl
    have hg1wf : ∀ e ∈ g1.edges, e.1 < N.length ∧ e.2 < N.length := by
      intro e he
      rw [hg1edges] at he
      rcases List.mem_append.mp he with he | he
      · exact hwf e he
      · simp only [List.mem_singleton] at he
        subst he
        exact ⟨hp, hr⟩
    obtain ⟨p1, hp1, hp1lt⟩ :=
      processRoot_prev_some hN hg1nodes (fun e he => (hg1wf e he).2) hr
    have hstep : processRoot ⟨g, some p⟩ r = ⟨g1, some p1⟩ := by
      rw [processRoot_some, ← hg1, hp1]
    rw [List.foldl_cons, hstep]
    obtain ⟨adds', h1, h2, h3⟩ := ih g1 p1 hg1nodes hg1wf hp1lt
      (fun x hx => hrest x (List.mem_cons_of_mem _ hx))
    refine ⟨(p, r) :: adds', ?_, ?_, ?_⟩
    · rw [h1, hg1edges, List.append_assoc]
      rfl
    · rw [List.map_cons, h2]
    · intro e he
      rcases List.mem_cons.mp he with rfl | he
      · exact ⟨hp, hr⟩
      · exact h3 e he

theorem rootsOf_lt (g : DiGraph) : ∀ i ∈ rootsOf g, i < g.nodes.length := by
  intro i hi
  exact List.mem_range.mp (List.mem_of_mem_filter hi)

theorem rootsOf_incoming (g : DiGraph) : ∀ i ∈ rootsOf g, g.incoming i = [] := by
  intro i hi
  have := List.of_mem_filter hi
  simpa [List.isEmpty_iff] using this

theorem mem_rootsOf (g : DiGraph) {i : Nat} (hi : i < g.nodes.length)
    (hinc : g.incoming i = []) : i ∈ rootsOf g := by
  unfold rootsOf
  rw [List.mem_filter]
  refine ⟨List.mem_range.mpr hi, ?_⟩
  simp [hinc]

theorem sortedRoots_mem (g : DiGraph) (i : Nat) :
    i ∈ sortedRoots g ↔ i ∈ rootsOf g := by
  unfold sortedRoots
  exact List.mem_mergeSort

theorem sortedRoots_nodup (g : DiGraph) : (sortedRoots g).Nodup := by
  unfold sortedRoots
  exact (List.mergeSort_perm _ _).nodup_iff.mpr (List.Nodup.filter _ (List.nodup_range _))

theorem reconnect_edges {g0 : DiGraph}
    (hN : ∀ info ∈ g0.nodes, 1 ≤ info.height)
    (hwf : ∀ e ∈ g0.edges, e.1 < g0.nodes.length ∧ e.2 < g0.nodes.length)
    {r1 : Nat} {rest : List Nat} (hsr : sortedRoots g0 = r1 :: rest) :
    ∃ adds : List (Nat × Nat),
      (reconnect g0).edges = g0.edges ++ adds ∧
      adds.map (fun e => e.2) = rest ∧
      (∀ e ∈ adds, e.1 < g0.nodes.length ∧ e.2 < g0.nodes.length) := by
  have hr1 : r1 < g0.nodes.length :=
    rootsOf_lt g0 r1 ((sortedRoots_mem g0 r1).mp (by rw [hsr]; simp))
  have hrest : ∀ r ∈ rest, r < g0.nodes.length := by
    intro r hr
    exact rootsOf_lt g0 r ((sortedRoots_mem g0 r).mp (by rw [hsr]; simp [hr]))
  obtain ⟨p1, hp1, hp1lt⟩ :=
    processRoot_prev_some hN rfl (fun e he => (hwf e he).2) hr1
  have hstep : processRoot ⟨g0, none⟩ r1 = ⟨g0, some p1⟩ := by
    rw [processRoot_none, hp1]
  unfold reconnect
  rw [hsr, List.foldl_cons, hstep]
  exact reconnect_fold_adds hN rest g0 p1 rfl hwf hp1lt hrest

/-- C3 (amended): for a tree whose nodes all have height ≥ 1 and whose edges
go from lower to higher heights (as every real header tree does), whenever
`strip_tree` returns a non-empty list, exactly one returned header has
`prev_id = MAX_U64` and every other returned header's `prev_id` is the id of
some header of the same list. (The `nodes.length < MAX_U64` bound mirrors
the `usize` index space.) -/
theorem strip_tree_single_root (t : TreeInfo) (k fth : Nat) (tips : Finset Nat)
    (hpos : ∀ info ∈ t.graph.nodes, 1 ≤ info.height)
    (hinc : ∀ e ∈ t.graph.edges,
      (t.graph.nodeAt e.1).height < (t.graph.nodeAt e.2).height)
    (hsize : t.graph.nodes.length < U64MAX)
    (hne : stripTree t k fth tips ≠ []) :
    ((stripTree t k fth tips).filter (fun h => decide (h.prev_id = U64MAX))).length = 1 ∧
    ∀ x ∈ stripTree t k fth tips, x.prev_id ≠ U64MAX →
      ∃ y ∈ stripTree t k fth tips, y.id = x.prev_id := by
  set S : List Nat := sortedInterestingHeights t k fth tips with hSdef
  set g0 : DiGraph := filterGraph t.graph S with hg0def
  set final : DiGraph := stripFinal t k fth tips with hfinaldef
  have hfg : final = reconnect g0 := by
    rw [hfinaldef, hg0def, hSdef]
    rfl
  have hfn : final.nodes = g0.nodes := by
    rw [hfg]
    exact reconnect_nodes g0
  have hout : stripTree t k fth tips =
      ((List.range final.nodes.length).map
        (fun idx => mkHeaderInfoJson (final.nodeAt idx) idx (prevIdOf final idx))).mergeSort
        (fun a b => a.id ≤ b.id) := by
    rw [hfinaldef]
    rfl
  set f : Nat → HeaderInfoJson :=
    fun idx => mkHeaderInfoJson (final.nodeAt idx) idx (prevIdOf final idx) with hfdef
  set L : List HeaderInfoJson := (List.range final.nodes.length).map f with hLdef
  have hperm : (stripTree t k fth tips).Perm L := by
    rw [hout]
    exact List.mergeSort_perm _ _
  -- the filtered graph is non-empty and inherits the height facts
  have hg0pos : ∀ info ∈ g0.nodes, 1 ≤ info.height := by
    intro info hinfo
    exact hpos info (filterGraph_nodes_mem t.graph S info hinfo)
  have hg0wf : ∀ e ∈ g0.edges, e.1 < g0.nodes.length ∧ e.2 < g0.nodes.length :=
    filterGraph_edges_wf t.graph S
  have hg0inc : ∀ e ∈ g0.edges, g0.heightAt e.1 < g0.heightAt e.2 :=
    filterGraph_height_lt t.graph S hinc
  have hn : 1 ≤ g0.nodes.length := by
    by_contra h
    apply hne
    have hzero : final.nodes.length = 0 := by
      rw [hfn]
      omega
    rw [hout]
    have hL0 : L = [] := by
      rw [hLdef, hzero]
      rfl
    rw [hL0]
    simp
  have hnsize : g0.nodes.length < U64MAX := by
    have h1 : g0.nodes.length = (survivors t.graph S).length := by
      rw [hg0def]
      exact filterGraph_nodes_length t.graph S
    have h2 : (survivors t.graph S).length ≤ t.graph.nodes.length := by
      unfold survivors
      calc ((List.range t.graph.nodes.length).filter _).length
          ≤ (List.range t.graph.nodes.length).length := List.length_filter_le _ _
        _ = t.graph.nodes.length := List.length_range _
    omega
  -- a root exists: a node of minimal height has no incoming edge
  have hrne : ∃ r1 rest, sortedRoots g0 = r1 :: rest := by
    obtain ⟨i, hi, hmin⟩ := Finset.exists_min_image (Finset.range g0.nodes.length)
      g0.heightAt ⟨0, Finset.mem_range.mpr (by omega)⟩
    have hiin : i < g0.nodes.length := Finset.mem_range.mp hi
    have hinc0 : g0.incoming i = [] := by
      cases hv : g0.incoming i with
      | nil => rfl
      | cons e es =>
        exfalso
        have hemem : e ∈ g0.edges := by
          have : e ∈ g0.incoming i := by rw [hv]; exact List.mem_cons_self _ _
          exact List.mem_of_mem_filter this
        have htarget : e.2 = i := by
          have : e ∈ g0.incoming i := by rw [hv]; exact List.mem_cons_self _ _
          have := List.of_mem_filter this
          simpa using this
        have hlt := hg0inc e hemem
        rw [htarget] at hlt
        have hsrc : e.1 ∈ Finset.range g0.nodes.length :=
          Finset.mem_range.mpr (hg0wf e hemem).1
        have := hmin e.1 hsrc
        omega
    have hmem : i ∈ sortedRoots g0 :=
      (sortedRoots_mem g0 i).mpr (mem_rootsOf g0 hiin hinc0)
    cases hsr : sortedRoots g0 with
    | nil => rw [hsr] at hmem; cases hmem
    | cons r1 rest => exact ⟨r1, rest, rfl⟩
  obtain ⟨r1, rest, hsr⟩ := hrne
  obtain ⟨adds, hedges, htargets, haddwf⟩ := reconnect_edges hg0pos hg0wf hsr
  rw [← hfg] at hedges
  have hr1root : r1 ∈ rootsOf g0 := (sortedRoots_mem g0 r1).mp (by rw [hsr]; simp)
  have hr1lt : r1 < g0.nodes.length := rootsOf_lt g0 r1 hr1root
  have hr1notrest : r1 ∉ rest := by
    have := sortedRoots_nodup g0
    rw [hsr] at this
    exact (List.nodup_cons.mp this).1
  -- incoming edges in the final graph
  have hfininc : ∀ i, final.incoming i =
      g0.incoming i ++ adds.filter (fun e => e.2 = i) := by
    intro i
    unfold DiGraph.incoming
    rw [hedges, List.filter_append]
  have hinc_zero_iff : ∀ i, i < g0.nodes.length →
      (final.incoming i = [] ↔ i = r1) := by
    intro i hilt
    constructor
    · intro hempty
      rw [hfininc] at hempty
      have h1 : g0.incoming i = [] := by
        cases hv : g0.incoming i with
        | nil => rfl
        | cons e es => rw [hv] at hempty; cases hempty
      have h2 : adds.filter (fun e => e.2 = i) = [] := by
        cases hv : adds.filter (fun e => e.2 = i) with
        | nil => rfl
        | cons e es =>
          rw [hv] at hempty
          rw [List.append_eq_nil] at hempty
          exact absurd hempty.2 (by simp)
      have hroots : i ∈ sortedRoots g0 :=
        (sortedRoots_mem g0 i).mpr (mem_rootsOf g0 hilt h1)
      rw [hsr] at hroots
      rcases List.mem_cons.mp hroots with rfl | hirest
      · rfl
      · exfalso
        have : i ∈ adds.map (fun e => e.2) := by rw [htargets]; exact hirest
        obtain ⟨e, he, heq⟩ := List.mem_map.mp this
        have : e ∈ adds.filter (fun e => e.2 = i) :=
          List.mem_filter.mpr ⟨he, by simp [heq]⟩
        rw [h2] at this
        cases this
    · intro hieq
      rw [hieq, hfininc]
      have h1 : g0.incoming r1 = [] := rootsOf_incoming g0 r1 hr1root
      have h2 : adds.filter (fun e => e.2 = r1) = [] := by
        rw [List.filter_eq_nil_iff]
        intro e he
        simp only [decide_eq_true_eq]
        intro hcontra
        apply hr1notrest
        rw [← htargets]
        exact List.mem_map.mpr ⟨e, he, hcontra⟩
      rw [h1, h2]
      rfl
  -- prev_id is the MAX sentinel exactly on the unique remaining root
  have hfwf : ∀ e ∈ final.edges, e.1 < g0.nodes.length ∧ e.2 < g0.nodes.length := by
    intro e he
    rw [hedges] at he
    rcases List.mem_append.mp he with he | he
    · exact hg0wf e he
    · exact haddwf e he
  have hprev_max : ∀ i, i < g0.nodes.length →
      (prevIdOf final i = U64MAX ↔ i = r1) := by
    intro i hilt
    rw [← hinc_zero_iff i hilt]
    constructor
    · intro hmax
      cases hv : final.incoming i with
      | nil => rfl
      | cons e es =>
        exfalso
        have hpid : prevIdOf final i = e.1 := by
          unfold prevIdOf
          rw [hv]
        have hemem : e ∈ final.edges := by
          have : e ∈ final.incoming i := by rw [hv]; exact List.mem_cons_self _ _
          exact List.mem_of_mem_filter this
        have := (hfwf e hemem).1
        rw [hpid] at hmax
        omega
    · intro hempty
      unfold prevIdOf
      rw [hempty]
  constructor
  · -- exactly one header with prev_id = MAX
    rw [← List.countP_eq_length_filter, hperm.countP_eq, hLdef, List.countP_map]
    have hcong : List.countP ((fun h => decide (h.prev_id = U64MAX)) ∘ f)
        (List.range final.nodes.length) =
        List.countP (fun idx => decide (idx = r1)) (List.range final.nodes.length) := by
      apply List.countP_congr
      intro idx hidx
      have hilt : idx < g0.nodes.length := by
        rw [← hfn]
        exact List.mem_range.mp hidx
      have hfid : ((fun h => decide (h.prev_id = U64MAX)) ∘ f) idx =
          decide (prevIdOf final idx = U64MAX) := rfl
      rw [hfid]
      simp only [decide_eq_true_eq]
      exact hprev_max idx hilt
    rw [hcong]
    have : List.countP (fun idx => decide (idx = r1)) (List.range final.nodes.length) =
        (List.range final.nodes.length).count r1 := by
      apply List.countP_congr
      intro idx _
      simp [List.count]
    rw [this]
    apply List.count_eq_one_of_mem (List.nodup_range _)
    rw [List.mem_range, hfn]
    exact hr1lt
  · -- every other prev_id is the id of a listed header
    intro x hx hxmax
    have hxL : x ∈ L := hperm.mem_iff.mp hx
    rw [hLdef] at hxL
    obtain ⟨idx, hidx, hfx⟩ := List.mem_map.mp hxL
    have hilt : idx < g0.nodes.length := by
      rw [← hfn]
      exact List.mem_range.mp hidx
    have hxprev : x.prev_id = prevIdOf final idx := by rw [← hfx]; rfl
    cases hv : final.incoming idx with
    | nil =>
      exfalso
      apply hxmax
      rw [hxprev]
      unfold prevIdOf
      rw [hv]
    | cons e es =>
      have hpid : prevIdOf final idx = e.1 := by
        unfold prevIdOf
        rw [hv]
      have hemem : e ∈ final.edges := by
        have : e ∈ final.incoming idx := by rw [hv]; exact List.mem_cons_self _ _
        exact List.mem_of_mem_filter this
      have he1 : e.1 < final.nodes.length := by
        rw [hfn]
        exact (hfwf e hemem).1
      refine ⟨f e.1, ?_, ?_⟩
      · apply hperm.mem_iff.mpr
        rw [hLdef]
        exact List.mem_map.mpr ⟨e.1, List.mem_range.mpr he1, rfl⟩
      · rw [hxprev, hpid]
        rfl

/-- Two distinct height-0 headers with no edges (two "genesis" blocks). -/
def c3Tree : TreeInfo :=
  { graph := { nodes := [⟨0, ⟨0, 1⟩, ""⟩, ⟨0, ⟨0, 2⟩, ""⟩], edges := [] },
    index := [(Nat.pair 0 1, 0), (Nat.pair 0 2, 1)] }

/-- C3 counterexample: on a tree with two height-0 nodes, the reconnect loop
records no maximum-height descendant (heights never exceed the initial
`u64::default()`), so both returned headers keep `prev_id = MAX_U64`. -/
theorem strip_tree_single_root_counterexample :
    stripTree c3Tree 1 0 ∅ ≠ [] ∧
    ((stripTree c3Tree 1 0 ∅).filter
      (fun h => decide (h.prev_id = U64MAX))).length ≠ 1 := by
  have hS : sortedInterestingHeights c3Tree 1 0 ∅ = [0] := by
    unfold sortedInterestingHeights
    rw [if_neg (by decide), if_neg (by decide)]
    have hIF : interestingFinset c3Tree.graph 1 0 ∅ = {0} := by
      unfold interestingFinset hotspotDescending
      have hcand : hotspotCandidates c3Tree.graph 0 ∅ = {0} := by decide
      rw [hcand, Finset.sort_singleton]
      decide
    rw [hIF]
    exact Finset.sort_singleton _ 0
  have hG0 : filterGraph c3Tree.graph [0] = c3Tree.graph := by decide
  have hroots : sortedRoots c3Tree.graph = [0, 1] := by
    unfold sortedRoots
    have hr : rootsOf c3Tree.graph = [0, 1] := by decide
    rw [hr]
    apply List.mergeSort_of_sorted
    decide
  have hrec : reconnect c3Tree.graph = c3Tree.graph := by
    unfold reconnect
    rw [hroots]
    decide
  have hsf : stripFinal c3Tree 1 0 ∅ = c3Tree.graph := by
    unfold stripFinal
    rw [hS, hG0, hrec]
  have hout : stripTree c3Tree 1 0 ∅ =
      ((List.range c3Tree.graph.nodes.length).map
        (fun idx => mkHeaderInfoJson (c3Tree.graph.nodeAt idx) idx
          (prevIdOf c3Tree.graph idx))).mergeSort (fun a b => a.id ≤ b.id) := by
    unfold stripTree
    rw [hsf]
  constructor
  · intro hnil
    rw [hout] at hnil
    have hlen := congrArg List.length hnil
    rw [List.length_mergeSort] at hlen
    simp at hlen
    exact absurd hlen (by decide)
  · rw [hout, ← List.countP_eq_length_filter, (List.mergeSort_perm _ _).countP_eq]
    decide

/-- A one-node tree of height 1 (witness input for the amended C3). -/
def c3WTree : TreeInfo :=
  { graph := { nodes := [⟨1, ⟨0, 1⟩, ""⟩], edges := [] }, index := [(Nat.pair 0 1, 0)] }

/-- Witness for the amended C3 at a concrete input. -/
theorem strip_tree_single_root_witness :
    (∀ info ∈ c3WTree.graph.nodes, 1 ≤ info.height) ∧
    (∀ e ∈ c3WTree.graph.edges,
      (c3WTree.graph.nodeAt e.1).height < (c3WTree.graph.nodeAt e.2).height) ∧
    c3WTree.graph.nodes.length < U64MAX ∧
    stripTree c3WTree 1 0 ∅ ≠ [] ∧
    (((stripTree c3WTree 1 0 ∅).filter
        (fun h => decide (h.prev_id = U64MAX))).length = 1 ∧
      ∀ x ∈ stripTree c3WTree 1 0 ∅, x.prev_id ≠ U64MAX →
        ∃ y ∈ stripTree c3WTree 1 0 ∅, y.id = x.prev_id) := by
  have hS : sortedInterestingHeights c3WTree 1 0 ∅ = [1] := by
    unfold sortedInterestingHeights
    rw [if_neg (by decide), if_neg (by decide)]
    have hIF : interestingFinset c3WTree.graph 1 0 ∅ = {1} := by
      unfold interestingFinset hotspotDescending
      have hcand : hotspotCandidates c3WTree.graph 0 ∅ = {1} := by decide
      rw [hcand, Finset.sort_singleton]
      decide
    rw [hIF]
    exact Finset.sort_singleton _ 1
  have hG0 : filterGraph c3WTree.graph [1] = c3WTree.graph := by decide
  have hroots : sortedRoots c3WTree.graph = [0] := by
    unfold sortedRoots
    have hr : rootsOf c3WTree.graph = [0] := by decide
    rw [hr]
    exact List.mergeSort_singleton 0
  have hrec : reconnect c3WTree.graph = c3WTree.graph := by
    unfold reconnect
    rw [hroots]
    decide
  have hsf : stripFinal c3WTree 1 0 ∅ = c3WTree.graph := by
    unfold stripFinal
    rw [hS, hG0, hrec]
  have hne : stripTree c3WTree 1 0 ∅ ≠ [] := by
    intro hnil
    have hout : stripTree c3WTree 1 0 ∅ =
        ((List.range c3WTree.graph.nodes.length).map
          (fun idx => mkHeaderInfoJson (c3WTree.graph.nodeAt idx) idx
            (prevIdOf c3WTree.graph idx))).mergeSort (fun a b => a.id ≤ b.id) := by
      unfold stripTree
      rw [hsf]
    rw [hout] at hnil
    have hlen := congrArg List.length hnil
    rw [List.length_mergeSort] at hlen
    simp at hlen
    exact absurd hlen (by decide)
  exact ⟨by decide, by decide, by decide, hne,
    strip_tree_single_root c3WTree 1 0 ∅ (by decide) (by decide) (by decide) hne⟩

/-! ### Poller iteration control flow (main.rs, C2) -/

/-- Outcome of one poller-loop iteration: either the loop proceeds to its
next tick (carrying `last_tips`), or the spawned task returns and exits. -/
inductive PollerStep where
  | next (lastTips : List Nat)
  | halt
deriving DecidableEq, Repr

/-- One iteration of the per-(network, peer) poller loop (main.rs lines
174–310), abstracted over the outcomes of its fallible calls. A `ChainTip`
is modelled from the spec by its sort key (types.rs is not in src/); the
reachability/cache/channel side effects do not affect the control flow and are
not modelled. `tipsResult = none` is a `tips()` error (logged, `continue`);
`headersResult = none` is a `new_headers` error (logged, `continue`);
`dbWriteOk = false` makes `write_to_db` fail, whose branch executes
`return MainError::Db(e)` — ending the async task. -/
def pollerIteration (lastTips : List Nat)
    (tipsResult : Option (List Nat))
    (headersResult : Option (List HeaderInfo × List Nat))
    (dbWriteOk : Bool) : PollerStep :=
  match tipsResult with
  | none => PollerStep.next lastTips
  | some tips0 =>
    let tips := tips0.mergeSort (fun a b => a ≤ b)
    if lastTips = tips then PollerStep.next lastTips
    else match headersResult with
      | none => PollerStep.next lastTips
      | some (new_headers, _miners_needed) =>
        if new_headers.isEmpty then PollerStep.next tips
        else if dbWriteOk then PollerStep.next tips
        else PollerStep.halt

/-- C2 counterexample: with fresh tips, a non-empty fetched batch and a
failing database write, the poller task halts instead of continuing. -/
theorem poller_db_error_counterexample :
    pollerIteration [] (some [1]) (some ([⟨1, ⟨0, 1⟩, ""⟩], [])) false =
      PollerStep.halt := by
  simp [pollerIteration, List.mergeSort_singleton]

/-- C2 (amended): a tips-fetch failure or a header-fetch failure is skipped
and the task continues, but the task halts exactly when the database write
of a non-empty new-header batch fails. -/
theorem poller_iteration_spec (lastTips tips : List Nat)
    (hr : Option (List HeaderInfo × List Nat)) (db : Bool) :
    pollerIteration lastTips none hr db = PollerStep.next lastTips ∧
    pollerIteration lastTips (some tips) none db ≠ PollerStep.halt ∧
    (∀ (nh : List HeaderInfo) (mn : List Nat),
      pollerIteration lastTips (some tips) (some (nh, mn)) db = PollerStep.halt ↔
        (lastTips ≠ tips.mergeSort (fun a b => a ≤ b) ∧ nh ≠ [] ∧ db = false)) := by
  refine ⟨rfl, ?_, ?_⟩
  · unfold pollerIteration
    by_cases h : lastTips = tips.mergeSort (fun a b => a ≤ b)
    · simp [h]
    · simp [h]
  · intro nh mn
    unfold pollerIteration
    by_cases h : lastTips = tips.mergeSort (fun a b => a ≤ b)
    · simp [h]
    · by_cases hnh : nh.isEmpty
      · simp [h, hnh, List.isEmpty_iff.mp hnh]
      · by_cases hdb : db
        · simp [h, hnh, hdb]
        · simp only [Bool.not_eq_true] at hdb
          have hnh2 : nh ≠ [] := by
            intro hc
            subst hc
            simp at hnh
          simp [h, hnh, hdb, hnh2]

/-! ### View cache (cache.rs / main.rs, C8 and C10) -/

/-- `Fork { common, children }` (types from usage in headertree.rs). -/
structure Fork where
  common : HeaderInfo
  children : List HeaderInfo
deriving DecidableEq, Repr

/-- Per-network cache (fields as constructed in cache.rs / main.rs); the
hash keys of `recent_miners` are block-hash values (`to_string` of a hash is
injective, so the string is modelled by the hash itself). `node_data` is not
touched by any modelled update and is omitted. -/
structure Cache where
  header_infos_json : List HeaderInfoJson
  forks : List Fork
  recent_miners : List (Nat × String)
deriving DecidableEq, Repr

/-- Modelled from the spec: `HeaderInfoJson::update_miner` (types.rs is not
in src/) replaces the miner field. -/
def HeaderInfoJson.update_miner (h : HeaderInfoJson) (m : String) : HeaderInfoJson :=
  { h with miner := m }

/-- `CacheUpdate::HeaderMiner` handling in `update_cache`: patch the miner of
the (first) matching cached header, push `(hash, miner)` onto
`recent_miners`, and pop the front when the length exceeds 5. -/
def updateCacheHeaderMiner (c : Cache) (header_info : HeaderInfo) : Cache :=
  let old :=
    match c.header_infos_json.findIdx?
        (fun h => h.hash = header_info.header.block_hash) with
    | some index =>
      c.header_infos_json.set index
        ((c.header_infos_json.getD index ⟨0, 0, 0, 0, ""⟩).update_miner header_info.miner)
    | none => c.header_infos_json
  let rm1 := c.recent_miners ++ [(header_info.header.block_hash, header_info.miner)]
  { c with header_infos_json := old,
           recent_miners := if 5 < rm1.length then rm1.tail else rm1 }

theorem updateCacheHeaderMiner_recent (c : Cache) (hi : HeaderInfo) :
    (updateCacheHeaderMiner c hi).recent_miners =
      (if 5 < (c.recent_miners ++ [(hi.header.block_hash, hi.miner)]).length
       then (c.recent_miners ++ [(hi.header.block_hash, hi.miner)]).tail
       else c.recent_miners ++ [(hi.header.block_hash, hi.miner)]) := rfl

theorem ringFold (updates : List HeaderInfo) :
    ∀ (c : Cache), c.recent_miners.length ≤ 5 →
    (updates.foldl updateCacheHeaderMiner c).recent_miners =
      (c.recent_miners ++
        updates.map (fun hi => (hi.header.block_hash, hi.miner))).drop
        (c.recent_miners.length + updates.length - 5) ∧
    (updates.foldl updateCacheHeaderMiner c).recent_miners.length ≤ 5 := by
  induction updates with
  | nil =>
    intro c hc
    constructor
    · simp only [List.foldl_nil, List.map_nil, List.append_nil, List.length_nil,
        Nat.add_zero]
      rw [show c.recent_miners.length - 5 = 0 by omega]
      rw [List.drop_zero]
    · simpa using hc
  | cons hi rest ih =>
    intro c hc
    rw [List.foldl_cons]
    set p : Nat × String := (hi.header.block_hash, hi.miner) with hp
    set c1 : Cache := updateCacheHeaderMiner c hi with hc1
    have hrm : c1.recent_miners =
        (if 5 < (c.recent_miners ++ [p]).length
         then (c.recent_miners ++ [p]).tail
         else c.recent_miners ++ [p]) := updateCacheHeaderMiner_recent c hi
    by_cases hfull : c.recent_miners.length = 5
    · have hlen : (c.recent_miners ++ [p]).length = 6 := by
        simp [hfull]
      have hrm1 : c1.recent_miners = (c.recent_miners ++ [p]).tail := by
        rw [hrm, if_pos (by omega)]
      have hlen1 : c1.recent_miners.length = 5 := by
        rw [hrm1, List.length_tail, hlen]
      obtain ⟨ihdrop, ihlen⟩ := ih c1 (by omega)
      refine ⟨?_, ihlen⟩
      rw [ihdrop, hrm1]
      rw [← List.drop_one]
      rw [List.length_drop, hlen]
      rw [← List.drop_append_of_le_length (by omega)]
      rw [List.drop_drop]
      rw [List.append_assoc, List.singleton_append]
      congr 1
      simp only [List.length_cons]
      omega
    · have hsmall : c.recent_miners.length < 5 := by omega
      have hrm1 : c1.recent_miners = c.recent_miners ++ [p] := by
        rw [hrm, if_neg (by simp; omega)]
      have hlen1 : c1.recent_miners.length = c.recent_miners.length + 1 := by
        rw [hrm1]
        simp
      obtain ⟨ihdrop, ihlen⟩ := ih c1 (by omega)
      refine ⟨?_, ihlen⟩
      rw [ihdrop, hrm1]
      rw [List.append_assoc, List.singleton_append]
      congr 1
      simp only [List.length_append, List.length_cons, List.length_nil]
      omega

/-- C8: starting from a cache whose ring is empty (how `populate_cache`
creates it), after any sequence of `HeaderMiner` updates the ring holds at
most 5 entries and equals the most recent at-most-5 pushed `(hash, miner)`
pairs in insertion order. -/
theorem recent_miners_ring (c : Cache) (updates : List HeaderInfo)
    (h0 : c.recent_miners = []) :
    (updates.foldl updateCacheHeaderMiner c).recent_miners.length ≤ 5 ∧
    (updates.foldl updateCacheHeaderMiner c).recent_miners =
      (updates.map (fun hi => (hi.header.block_hash, hi.miner))).drop
        (updates.length - 5) := by
  obtain ⟨hdrop, hlen⟩ := ringFold updates c (by rw [h0]; simp)
  refine ⟨hlen, ?_⟩
  rw [hdrop, h0]
  simp

/-- Six consecutive miner identifications for the ring witness. -/
def c8Updates : List HeaderInfo :=
  [⟨1, ⟨0, 1⟩, "p1"⟩, ⟨2, ⟨0, 2⟩, "p2"⟩, ⟨3, ⟨0, 3⟩, "p3"⟩,
   ⟨4, ⟨0, 4⟩, "p4"⟩, ⟨5, ⟨0, 5⟩, "p5"⟩, ⟨6, ⟨0, 6⟩, "p6"⟩]

/-- Witness for C8 at a concrete cache and six pushes. -/
theorem recent_miners_ring_witness :
    (Cache.mk [] [] []).recent_miners = [] ∧
    ((c8Updates.foldl updateCacheHeaderMiner (Cache.mk [] [] [])).recent_miners.length ≤ 5 ∧
     (c8Updates.foldl updateCacheHeaderMiner (Cache.mk [] [] [])).recent_miners =
       (c8Updates.map (fun hi => (hi.header.block_hash, hi.miner))).drop
         (c8Updates.length - 5)) :=
  ⟨rfl, recent_miners_ring (Cache.mk [] [] []) c8Updates rfl⟩

/-- `HashMap<String, HeaderInfoJson>::insert` (collecting
`header_infos_json.iter().map(|h| (h.hash, h))`): overwrite or append. -/
def hijInsert (m : List (Nat × HeaderInfoJson)) (k : Nat) (v : HeaderInfoJson) :
    List (Nat × HeaderInfoJson) :=
  if (m.find? (fun p => p.1 = k)).isSome then
    m.map (fun p => if p.1 = k then (k, v) else p)
  else m ++ [(k, v)]

/-- The hash-keyed map built from the incoming header list (later entries
overwrite earlier ones with the same hash). -/
def toHashMap (hij : List HeaderInfoJson) : List (Nat × HeaderInfoJson) :=
  hij.foldl (fun m h => hijInsert m h.hash h) []

/-- One `entry(hash).and_modify(|new| new.update_miner(miner))` step. -/
def overlayStep (m : List (Nat × HeaderInfoJson)) (p : Nat × String) :
    List (Nat × HeaderInfoJson) :=
  m.map (fun q => if q.1 = p.1 then (q.1, q.2.update_miner p.2) else q)

/-- The `recent_miners` overlay loop over the fresh map. -/
def overlayRecent (m : List (Nat × HeaderInfoJson)) (rm : List (Nat × String)) :
    List (Nat × HeaderInfoJson) :=
  rm.foldl overlayStep m

/-- The list stored by a `HeaderTree` update: the values of the overlaid
hash map. Rust collects `HashMap::into_values`, whose iteration order is
unspecified; this model lists values in key-insertion order, and the C10
theorem quantifies over every permutation of it. -/
def headerTreeNewList (hij : List HeaderInfoJson) (rm : List (Nat × String)) :
    List HeaderInfoJson :=
  (overlayRecent (toHashMap hij) rm).map (fun p => p.2)

/-- `CacheUpdate::HeaderTree` handling in `update_cache`: replace the header
list with the overlaid map values and the fork list wholesale. -/
def updateCacheHeaderTree (c : Cache) (header_infos_json : List HeaderInfoJson)
    (forks : List Fork) : Cache :=
  { c with header_infos_json := headerTreeNewList header_infos_json c.recent_miners,
           forks := forks }

theorem hijInsert_mem {m : List (Nat × HeaderInfoJson)} {k : Nat} {v : HeaderInfoJson} :
    ∀ p ∈ hijInsert m k v, p = (k, v) ∨ p ∈ m := by
  intro p hp
  unfold hijInsert at hp
  split at hp
  · obtain ⟨q, hq, hfq⟩ := List.mem_map.mp hp
    by_cases hqk : q.1 = k
    · rw [if_pos hqk] at hfq
      exact Or.inl hfq.symm
    · rw [if_neg hqk] at hfq
      subst hfq
      exact Or.inr hq
  · rcases List.mem_append.mp hp with hp | hp
    · exact Or.inr hp
    · simp only [List.mem_singleton] at hp
      exact Or.inl hp

theorem hijInsert_keys (m : List (Nat × HeaderInfoJson)) (k : Nat) (v : HeaderInfoJson) :
    (hijInsert m k v).map (fun p => p.1) =
      if (m.find? (fun p => p.1 = k)).isSome then m.map (fun p => p.1)
      else m.map (fun p => p.1) ++ [k] := by
  unfold hijInsert
  split
  · rw [List.map_map]
    apply List.map_congr_left
    intro q _
    by_cases hqk : q.1 = k
    · simp [hqk]
    · simp [hqk]
  · rw [List.map_append]
    rfl

theorem hijFind_isSome_iff (m : List (Nat × HeaderInfoJson)) (k : Nat) :
    (m.find? (fun p => p.1 = k)).isSome ↔ k ∈ m.map (fun p => p.1) := by
  induction m with
  | nil => simp [List.find?]
  | cons p m ih =>
    by_cases hpk : p.1 = k
    · simp [List.find?_cons_of_pos, hpk]
    · rw [List.find?_cons_of_neg _ (by simp [hpk])]
      simp only [List.map_cons, List.mem_cons]
      rw [ih]
      constructor
      · exact fun h => Or.inr h
      · rintro (h | h)
        · exact absurd h.symm hpk
        · exact h

theorem toHashMap_fold_spec (hij : List HeaderInfoJson) :
    ∀ m : List (Nat × HeaderInfoJson),
    (∀ p ∈ m, p.2.hash = p.1) →
    ((m.map (fun p => p.1)).Nodup) →
    (∀ p ∈ hij.foldl (fun m h => hijInsert m h.hash h) m, p.2.hash = p.1) ∧
    ((hij.foldl (fun m h => hijInsert m h.hash h) m).map (fun p => p.1)).Nodup ∧
    (∀ a, a ∈ (hij.foldl (fun m h => hijInsert m h.hash h) m).map (fun p => p.1) ↔
      a ∈ m.map (fun p => p.1) ∨ ∃ h ∈ hij, h.hash = a) ∧
    (∀ p ∈ hij.foldl (fun m h => hijInsert m h.hash h) m,
      p.2 ∈ m.map (fun q => q.2) ∨ p.2 ∈ hij) := by
  induction hij with
  | nil =>
    intro m hKV hnd
    refine ⟨hKV, hnd, fun a => ?_, fun p hp => Or.inl (List.mem_map.mpr ⟨p, hp, rfl⟩)⟩
    simp
  | cons h rest ih =>
    intro m hKV hnd
    have hstep : (h :: rest).foldl (fun m h => hijInsert m h.hash h) m
        = rest.foldl (fun m h => hijInsert m h.hash h) (hijInsert m h.hash h) := rfl
    set m1 : List (Nat × HeaderInfoJson) := hijInsert m h.hash h with hm1
    have hKV1 : ∀ p ∈ m1, p.2.hash = p.1 := by
      intro p hp
      rcases hijInsert_mem p hp with rfl | hp
      · rfl
      · exact hKV p hp
    have hkeys1 : m1.map (fun p => p.1) =
        if (m.find? (fun p => p.1 = h.hash)).isSome then m.map (fun p => p.1)
        else m.map (fun p => p.1) ++ [h.hash] := hijInsert_keys m h.hash h
    have hnd1 : (m1.map (fun p => p.1)).Nodup := by
      rw [hkeys1]
      split
      · exact hnd
      · next hnotin =>
        rw [List.nodup_append]
        refine ⟨hnd, by simp, ?_⟩
        intro a ha hae
        simp only [List.mem_singleton] at hae
        subst hae
        exact hnotin ((hijFind_isSome_iff m h.hash).mpr ha)
    have hmemkeys1 : ∀ a, a ∈ m1.map (fun p => p.1) ↔
        a ∈ m.map (fun p => p.1) ∨ a = h.hash := by
      intro a
      rw [hkeys1]
      split
      · next hin =>
        constructor
        · exact fun ha => Or.inl ha
        · rintro (ha | rfl)
          · exact ha
          · exact (hijFind_isSome_iff m h.hash).mp hin
      · simp
    obtain ⟨e1, e2, e3, e4⟩ := ih m1 hKV1 hnd1
    rw [hstep]
    refine ⟨e1, e2, ?_, ?_⟩
    · intro a
      rw [e3 a, hmemkeys1 a]
      constructor
      · rintro ((ha | rfl) | ⟨h', hh', hha⟩)
        · exact Or.inl ha
        · exact Or.inr ⟨h, List.mem_cons_self _ _, rfl⟩
        · exact Or.inr ⟨h', List.mem_cons_of_mem _ hh', hha⟩
      · rintro (ha | ⟨h', hh', hha⟩)
        · exact Or.inl (Or.inl ha)
        · rcases List.mem_cons.mp hh' with rfl | hh'
          · exact Or.inl (Or.inr hha.symm)
          · exact Or.inr ⟨h', hh', hha⟩
    · intro p hp
      rcases e4 p hp with hv | hv
      · obtain ⟨q, hq, hqe⟩ := List.mem_map.mp hv
        rcases hijInsert_mem q hq with rfl | hq2
        · exact Or.inr (by rw [← hqe]; exact List.mem_cons_self _ _)
        · exact Or.inl (List.mem_map.mpr ⟨q, hq2, hqe⟩)
      · exact Or.inr (List.mem_cons_of_mem _ hv)

theorem update_miner_twice (h : HeaderInfoJson) (a b : String) :
    (h.update_miner a).update_miner b = h.update_miner b := rfl

theorem overlayStep_keys (m : List (Nat × HeaderInfoJson)) (p : Nat × String) :
    (overlayStep m p).map (fun q => q.1) = m.map (fun q => q.1) := by
  unfold overlayStep
  rw [List.map_map]
  apply List.map_congr_left
  intro q _
  by_cases hq : q.1 = p.1
  · simp [hq]
  · simp [hq]

theorem overlayRecent_keys (rm : List (Nat × String)) :
    ∀ m : List (Nat × HeaderInfoJson),
    (overlayRecent m rm).map (fun q => q.1) = m.map (fun q => q.1) := by
  induction rm with
  | nil => intro m; rfl
  | cons r rs ih =>
    intro m
    rw [show overlayRecent m (r :: rs) = overlayRecent (overlayStep m r) rs from rfl]
    rw [ih (overlayStep m r), overlayStep_keys]

theorem overlayRecent_KV (rm : List (Nat × String)) :
    ∀ m : List (Nat × HeaderInfoJson), (∀ p ∈ m, p.2.hash = p.1) →
    ∀ p ∈ overlayRecent m rm, p.2.hash = p.1 := by
  induction rm with
  | nil => intro m hm; exact hm
  | cons r rs ih =>
    intro m hm
    rw [show overlayRecent m (r :: rs) = overlayRecent (overlayStep m r) rs from rfl]
    apply ih
    intro p hp
    unfold overlayStep at hp
    obtain ⟨q, hq, hqe⟩ := List.mem_map.mp hp
    by_cases hqr : q.1 = r.1
    · rw [if_pos hqr] at hqe
      subst hqe
      exact hm q hq
    · rw [if_neg hqr] at hqe
      subst hqe
      exact hm q hq

theorem overlayRecent_values (rm : List (Nat × String)) :
    ∀ m : List (Nat × HeaderInfoJson), ∀ p ∈ overlayRecent m rm,
      ∃ q ∈ m, p.1 = q.1 ∧
        (p.2 = q.2 ∨ ∃ mm, (p.1, mm) ∈ rm ∧ p.2 = q.2.update_miner mm) := by
  induction rm with
  | nil =>
    intro m p hp
    exact ⟨p, hp, rfl, Or.inl rfl⟩
  | cons r rs ih =>
    intro m p hp
    rw [show overlayRecent m (r :: rs) = overlayRecent (overlayStep m r) rs from rfl] at hp
    obtain ⟨q', hq', hpq1, hpq2⟩ := ih (overlayStep m r) p hp
    unfold overlayStep at hq'
    obtain ⟨q, hq, hqe⟩ := List.mem_map.mp hq'
    by_cases hqr : q.1 = r.1
    · rw [if_pos hqr] at hqe
      subst hqe
      refine ⟨q, hq, hpq1, ?_⟩
      rcases hpq2 with hp2 | ⟨mm, hmm, hp2⟩
      · refine Or.inr ⟨r.2, ?_, hp2⟩
        have : p.1 = r.1 := by rw [hpq1, hqr]
        rw [this]
        exact List.mem_cons_self _ _
      · refine Or.inr ⟨mm, List.mem_cons_of_mem _ hmm, ?_⟩
        rw [hp2, update_miner_twice]
    · rw [if_neg hqr] at hqe
      subst hqe
      refine ⟨q, hq, hpq1, ?_⟩
      rcases hpq2 with hp2 | ⟨mm, hmm, hp2⟩
      · exact Or.inl hp2
      · exact Or.inr ⟨mm, List.mem_cons_of_mem _ hmm, hp2⟩

/-- C10: a `HeaderTree` cache update stores exactly one entry per incoming
hash — each an incoming header, with the miner overlaid from `recent_miners`
on matching hashes — but in an unspecified order: every permutation of the
map values is a possible stored list, including ones that break the
id-ascending order `strip_tree` produced. -/
theorem header_tree_update_unordered :
    (∀ (c : Cache) (hij out : List HeaderInfoJson),
      out.Perm (headerTreeNewList hij c.recent_miners) →
      ((∀ a, (∃ x ∈ out, x.hash = a) ↔ (∃ h ∈ hij, h.hash = a)) ∧
       (out.map (fun x => x.hash)).Nodup ∧
       (∀ x ∈ out, ∃ h ∈ hij, x.hash = h.hash ∧ x.id = h.id ∧
         x.prev_id = h.prev_id ∧ x.height = h.height ∧
         (x.miner = h.miner ∨ ∃ m, (x.hash, m) ∈ c.recent_miners ∧ x.miner = m)))) ∧
    (∃ (c : Cache) (hij out : List HeaderInfoJson),
      out.Perm (headerTreeNewList hij c.recent_miners) ∧
      List.Pairwise (fun a b => a.id ≤ b.id) hij ∧ out ≠ hij) := by
  constructor
  · intro c hij out hperm
    obtain ⟨hKV, hnd, hkeys, hvals⟩ :=
      toHashMap_fold_spec hij [] (by simp) (by simp)
    have ht : toHashMap hij = hij.foldl (fun m h => hijInsert m h.hash h) [] := rfl
    rw [← ht] at hKV hnd hkeys hvals
    have hKVover : ∀ p ∈ overlayRecent (toHashMap hij) c.recent_miners,
        p.2.hash = p.1 := overlayRecent_KV c.recent_miners (toHashMap hij) hKV
    have hhash : (headerTreeNewList hij c.recent_miners).map (fun x => x.hash) =
        (toHashMap hij).map (fun p => p.1) := by
      unfold headerTreeNewList
      rw [List.map_map]
      rw [show ((fun x : HeaderInfoJson => x.hash) ∘ fun p : Nat × HeaderInfoJson => p.2)
          = fun p : Nat × HeaderInfoJson => p.2.hash from rfl]
      rw [← overlayRecent_keys c.recent_miners (toHashMap hij)]
      exact List.map_congr_left hKVover
    refine ⟨?_, ?_, ?_⟩
    · intro a
      have h1 : (∃ x ∈ out, x.hash = a) ↔ a ∈ out.map (fun x => x.hash) := by
        rw [List.mem_map]
      rw [h1, (hperm.map (fun x => x.hash)).mem_iff, hhash]
      rw [hkeys a]
      simp only [List.map_nil, List.not_mem_nil, false_or]
    · refine (hperm.map (fun x => x.hash)).nodup_iff.mpr ?_
      rw [hhash]
      exact hnd
    · intro x hx
      have hxc : x ∈ headerTreeNewList hij c.recent_miners := hperm.mem_iff.mp hx
      unfold headerTreeNewList at hxc
      obtain ⟨p, hp, hpe⟩ := List.mem_map.mp hxc
      obtain ⟨q, hq, hpq1, hpq2⟩ :=
        overlayRecent_values c.recent_miners (toHashMap hij) p hp
      have hqh : q.2 ∈ hij := by
        rcases hvals q hq with hv | hv
        · simp at hv
        · exact hv
      have hqhash : q.2.hash = q.1 := hKV q hq
      refine ⟨q.2, hqh, ?_, ?_, ?_, ?_, ?_⟩
      · rcases hpq2 with h2 | ⟨mm, _, h2⟩
        · rw [← hpe, h2]
        · rw [← hpe, h2]; rfl
      · rcases hpq2 with h2 | ⟨mm, _, h2⟩
        · rw [← hpe, h2]
        · rw [← hpe, h2]; rfl
      · rcases hpq2 with h2 | ⟨mm, _, h2⟩
        · rw [← hpe, h2]
        · rw [← hpe, h2]; rfl
      · rcases hpq2 with h2 | ⟨mm, _, h2⟩
        · rw [← hpe, h2]
        · rw [← hpe, h2]; rfl
      · rcases hpq2 with h2 | ⟨mm, hmm, h2⟩
        · exact Or.inl (by rw [← hpe, h2])
        · refine Or.inr ⟨mm, ?_, by rw [← hpe, h2]; rfl⟩
          have hxh : x.hash = p.1 := by
            rw [← hpe, h2, hpq1]
            rw [show (q.2.update_miner mm).hash = q.2.hash from rfl, hqhash]
          rw [hxh]
          exact hmm
  · refine ⟨Cache.mk [] [] [],
      [⟨0, 0, 0, 1, ""⟩, ⟨1, 0, 0, 2, ""⟩],
      [⟨1, 0, 0, 2, ""⟩, ⟨0, 0, 0, 1, ""⟩], ?_, by decide, by decide⟩
    have hcanon : headerTreeNewList
        [⟨0, 0, 0, 1, ""⟩, ⟨1, 0, 0, 2, ""⟩] (Cache.mk [] [] []).recent_miners =
        [⟨0, 0, 0, 1, ""⟩, ⟨1, 0, 0, 2, ""⟩] := by decide
    rw [hcanon]
    exact List.Perm.swap _ _ _

/-- Witness for C10 at a concrete update: a reversed value order is a valid
outcome and still carries exactly the incoming headers. -/
theorem header_tree_update_unordered_witness :
    ([(⟨1, 0, 0, 2, ""⟩ : HeaderInfoJson), ⟨0, 0, 0, 1, ""⟩].Perm
      (headerTreeNewList [⟨0, 0, 0, 1, ""⟩, ⟨1, 0, 0, 2, ""⟩]
        (Cache.mk [] [] []).recent_miners)) ∧
    ((∀ a, (∃ x ∈ [(⟨1, 0, 0, 2, ""⟩ : HeaderInfoJson), ⟨0, 0, 0, 1, ""⟩], x.hash = a) ↔
        (∃ h ∈ [(⟨0, 0, 0, 1, ""⟩ : HeaderInfoJson), ⟨1, 0, 0, 2, ""⟩], h.hash = a)) ∧
     (([(⟨1, 0, 0, 2, ""⟩ : HeaderInfoJson), ⟨0, 0, 0, 1, ""⟩]).map
        (fun x => x.hash)).Nodup ∧
     (∀ x ∈ [(⟨1, 0, 0, 2, ""⟩ : HeaderInfoJson), ⟨0, 0, 0, 1, ""⟩],
        ∃ h ∈ [(⟨0, 0, 0, 1, ""⟩ : HeaderInfoJson), ⟨1, 0, 0, 2, ""⟩],
          x.hash = h.hash ∧ x.id = h.id ∧ x.prev_id = h.prev_id ∧ x.height = h.height ∧
          (x.miner = h.miner ∨
            ∃ m, (x.hash, m) ∈ (Cache.mk [] [] []).recent_miners ∧ x.miner = m))) := by
  have hcanon : headerTreeNewList
      [(⟨0, 0, 0, 1, ""⟩ : HeaderInfoJson), ⟨1, 0, 0, 2, ""⟩]
      (Cache.mk [] [] []).recent_miners =
      [⟨0, 0, 0, 1, ""⟩, ⟨1, 0, 0, 2, ""⟩] := by decide
  have hperm : ([(⟨1, 0, 0, 2, ""⟩ : HeaderInfoJson), ⟨0, 0, 0, 1, ""⟩].Perm
      (headerTreeNewList [⟨0, 0, 0, 1, ""⟩, ⟨1, 0, 0, 2, ""⟩]
        (Cache.mk [] [] []).recent_miners)) := by
    rw [hcanon]
    exact List.Perm.swap _ _ _
  exact ⟨hperm, header_tree_update_unordered.1 (Cache.mk [] [] []) _ _ hperm⟩
